import Mathlib

/-!
Shallow embedding of the `py_chunk_in_memory` chunking engine
(`src/py_chunk_in_memory/chunkers.py`, `models.py`) and proofs of the
specified properties.

Python strings are modelled as lists of characters (code points), Python
`int` as `Int`, and a pluggable size function (`length_function`,
`Callable[[str], int]`) as `Text → Int`.  Each Lean definition mirrors one
Python function or loop of the source; `while` loops become recursion on an
explicit decreasing measure, and `for` loops over lists become structural
recursion.
-/

/-- A Python string: a list of code points. -/
abbrev Text := List Char

/-- A size-measuring function, Python `Callable[[str], int]`. -/
abbrev SizeFn := Text → Int

/-- Python slice `t[a:b]` for natural `a`, `b` (out-of-range indices clamp,
exactly as in Python). -/
def pySlice (t : Text) (a b : Nat) : Text := (t.take b).drop a

/-- Python `enumerate` fused with a map: `enumMap f i [a, b, ...] = [f i a, f (i+1) b, ...]`. -/
def enumMap (f : Nat → α → β) : Nat → List α → List β
  | _, [] => []
  | i, a :: as => f i a :: enumMap f (i + 1) as

/-- The `Chunk` dataclass of `models.py` (the fields the chunkers populate).
`chunk_id` is `uuid4()` in the source — a fresh identifier per constructed
chunk; it is modelled as the construction counter of the producing call,
which preserves exactly the property used anywhere (distinctness within one
returned sequence).  `previous_chunk_id` / `next_chunk_id` are unset at
construction. -/
structure Chunk where
  text_for_generation : Text
  chunk_id : Nat
  previous_chunk_id : Option Nat := none
  next_chunk_id : Option Nat := none
  start_char_index : Nat
  end_char_index : Nat
  sequence_number : Nat
  token_count : Int
  chunking_strategy_used : String
deriving Repr, DecidableEq

/-- Configuration of `FixedSizeChunker` (held on `self` after `__init__`). -/
structure FixedSizeChunker where
  chunk_size : Int
  chunk_overlap : Int
  length_function : SizeFn

/-- The validation performed by `FixedSizeChunker.__init__`: the error raised,
if any, for the given arguments. -/
def FixedSizeChunker.initError (chunk_size chunk_overlap : Int) : Option String :=
  if chunk_size ≤ 0 then some "chunk_size must be a positive integer."
  else if chunk_overlap < 0 then some "chunk_overlap must be a non-negative integer."
  else if chunk_overlap ≥ chunk_size then some "chunk_overlap must be smaller than chunk_size."
  else none

/-- Step 1 of `FixedSizeChunker.chunk`: the
`for i in range(start, len(text)): if length_function(text[i:i+1]) > chunk_size` scan
returning the first oversized character index (`-1` in Python becomes `none`). -/
def findNextOversizedFrom (f : SizeFn) (size : Int) (t : Text) (i : Nat) : Option Nat :=
  if _h : i < t.length then
    if f (pySlice t i (i + 1)) > size then some i
    else findNextOversizedFrom f size t (i + 1)
  else none
termination_by t.length - i

/-- Step 3 of `FixedSizeChunker.chunk`: the
`while end_char < limit: if length_function(text[start:end+1]) > size: break; end += 1`
scan, as recursion on the loop counter. -/
def scanEnd (f : SizeFn) (size : Int) (t : Text) (start lim e : Nat) : Nat :=
  if _h : e < lim then
    if f (pySlice t start (e + 1)) > size then e
    else scanEnd f size t start lim (e + 1)
  else e
termination_by lim - e

/-- Step 5 of `FixedSizeChunker.chunk`: the backward overlap scan
`while start_of_overlap > start_char: if length_function(text[so-1:end]) > overlap: break; so -= 1`. -/
def scanOverlap (f : SizeFn) (overlap : Int) (t : Text) (start_char end_char so : Nat) : Nat :=
  if _h : start_char < so then
    if f (pySlice t (so - 1) end_char) > overlap then so
    else scanOverlap f overlap t start_char end_char (so - 1)
  else so
termination_by so

/-- The `while start_char < text_len_chars` loop of `FixedSizeChunker.chunk`.
`start_char` strictly increases each iteration, which is the termination
measure.  The `if not chunk_text: break` of the source is the
`chunk_text = []` branch. -/
def FixedSizeChunker.chunkGo (c : FixedSizeChunker) (t : Text) (start_char seq : Nat) :
    List Chunk :=
  if _hstart : start_char < t.length then
    let nextOv := findNextOversizedFrom c.length_function c.chunk_size t start_char
    let lim := nextOv.getD t.length
    let end_char :=
      if lim = start_char then start_char + 1
      else scanEnd c.length_function c.chunk_size t start_char lim start_char
    if hempty : pySlice t start_char end_char = [] then []
    else
      let chunk_text := pySlice t start_char end_char
      let ck : Chunk :=
        { text_for_generation := chunk_text
          chunk_id := seq
          start_char_index := start_char
          end_char_index := end_char
          sequence_number := seq
          token_count := c.length_function chunk_text
          chunking_strategy_used := "fixed_size" }
      if end_char = t.length then [ck]
      else if nextOv = some end_char then ck :: c.chunkGo t end_char (seq + 1)
      else
        let so := scanOverlap c.length_function c.chunk_overlap t start_char end_char end_char
        ck :: c.chunkGo t (if so ≤ start_char then end_char else so) (seq + 1)
  else []
termination_by t.length - start_char
decreasing_by
  · have h1 : start_char < end_char := by
      rcases Nat.lt_or_ge start_char end_char with h | h
      · exact h
      · exact absurd (List.drop_eq_nil_of_le (by simp [List.length_take]; omega) :
          pySlice t start_char end_char = []) hempty
    show t.length - end_char < t.length - start_char
    omega
  · have h1 : start_char < end_char := by
      rcases Nat.lt_or_ge start_char end_char with h | h
      · exact h
      · exact absurd (List.drop_eq_nil_of_le (by simp [List.length_take]; omega) :
          pySlice t start_char end_char = []) hempty
    show t.length - (if so ≤ start_char then end_char else so) < t.length - start_char
    rcases le_or_lt so start_char with h2 | h2
    · rw [if_pos h2]; omega
    · rw [if_neg (Nat.not_le.mpr h2)]
      omega

/-- `FixedSizeChunker.chunk`. -/
def FixedSizeChunker.chunk (c : FixedSizeChunker) (t : Text) : List Chunk :=
  if t = [] then [] else c.chunkGo t 0 0

/-- The `_Split` dataclass: a fragment with its character indices. -/
structure Split where
  text : Text
  start_index : Nat
  end_index : Nat
deriving Repr, DecidableEq

/-- Configuration of `RecursiveCharacterChunker`.  `separators` is the value
stored by `__init__` (`separators or [default list]`, hence never empty for a
constructed chunker). -/
structure RecursiveCharacterChunker where
  chunk_size : Int
  chunk_overlap : Int
  length_function : SizeFn
  separators : List Text
  keep_separator : Bool

/-- The default separator list `["\n\n", "\n", ". ", "? ", "! ", " ", ""]`. -/
def defaultSeparators : List Text :=
  ["\n\n".toList, "\n".toList, ". ".toList, "? ".toList, "! ".toList, " ".toList, []]

/-- The validation performed by `RecursiveCharacterChunker.__init__` (identical
to the fixed-size one). -/
def RecursiveCharacterChunker.initError (chunk_size chunk_overlap : Int) : Option String :=
  if chunk_size ≤ 0 then some "chunk_size must be a positive integer."
  else if chunk_overlap < 0 then some "chunk_overlap must be a non-negative integer."
  else if chunk_overlap ≥ chunk_size then some "chunk_overlap must be smaller than chunk_size."
  else none

/-- `re.finditer(re.escape(separator), text)`: start positions of the
non-overlapping left-to-right occurrences of the literal separator; after a
match the search resumes at the match end, as in the `re` engine.  Since
`re.escape` always yields a valid pattern, the `except re.error` per-character
fallback of the source is unreachable and not modelled. -/
def findLiteralFrom (sep t : Text) (i : Nat) : List Nat :=
  if _h : i < t.length then
    if hm : sep ≠ [] ∧ sep.isPrefixOf (t.drop i) then i :: findLiteralFrom sep t (i + sep.length)
    else findLiteralFrom sep t (i + 1)
  else []
termination_by t.length - i
decreasing_by
  · have : sep.length ≠ 0 := fun h0 => hm.1 (List.length_eq_zero.mp h0)
    omega
  · omega

/-- The `for match in re.finditer(...)` loop of `_split_text_with_indices`
building `final_splits` from the match spans `(m, m + len(sep))`, plus the
trailing `if last_end < len(text)` fragment. -/
def piecesGo (keep : Bool) (t : Text) (off sepLen : Nat) : List Nat → Nat → List Split
  | [], last_end =>
    if last_end < t.length then
      [{ text := t.drop last_end, start_index := off + last_end, end_index := off + t.length }]
    else []
  | m :: ms, last_end =>
    if keep then
      { text := pySlice t last_end (m + sepLen), start_index := off + last_end,
        end_index := off + (m + sepLen) } :: piecesGo keep t off sepLen ms (m + sepLen)
    else
      { text := pySlice t last_end m, start_index := off + last_end,
        end_index := off + m } :: piecesGo keep t off sepLen ms (m + sepLen)

/-- The empty-separator fallback of `_split_text_with_indices`:
`for i in range(0, len(text), chunk_size)` slicing `chunk_size`-character
segments.  `chunk_size` is validated positive at construction; the `k = 0`
guard (where the Python `range` would raise) returns `[]`. -/
def sliceByChunkSize (k : Nat) (t : Text) (off i : Nat) : List Split :=
  if _h : i < t.length ∧ 0 < k then
    { text := pySlice t i (i + k), start_index := off + i,
      end_index := off + i + (pySlice t i (i + k)).length } :: sliceByChunkSize k t off (i + k)
  else []
termination_by t.length - i
decreasing_by omega

/-- Termination measure for the recursive split: the separator list strictly
shrinks each level, and a level whose head is the empty separator performs no
further recursion. -/
def sepsMeasure : List Text → Nat
  | [] => 0
  | s :: r => r.length + (if s = [] then 0 else 1)

mutual

/-- `RecursiveCharacterChunker._split_text_with_indices`.  The `separators`
argument is non-empty at every call site (`chunk` passes the constructed
list, recursion passes `remaining_separators or [""]`); the `[]` case is
unreachable dead code. -/
def RecursiveCharacterChunker.splitTextWithIndices (c : RecursiveCharacterChunker)
    (t : Text) (separators : List Text) (initial_offset : Nat) : List Split :=
  if t = [] then []
  else
    match separators with
    | [] => []
    | separator :: remaining =>
      if separator = [] then sliceByChunkSize c.chunk_size.toNat t initial_offset 0
      else
        let ms := findLiteralFrom separator t 0
        let final_splits := piecesGo c.keep_separator t initial_offset separator.length ms 0
        RecursiveCharacterChunker.recurseSplits c final_splits
          (if remaining = [] then [[]] else remaining)
termination_by (sepsMeasure separators, 0)
decreasing_by
  refine Prod.Lex.left _ _ ?_
  rename_i hsep
  rcases r with _ | ⟨a, as⟩
  · simp [sepsMeasure, hsep]
  · rw [dif_neg (List.cons_ne_nil a as)]
    have h1 : sepsMeasure (a :: as) ≤ as.length + 1 := by
      simp only [sepsMeasure]
      split <;> omega
    have h2 : sepsMeasure (s :: a :: as) = as.length + 2 := by
      simp [sepsMeasure, hsep]
    omega

/-- The `for split in final_splits` loop that keeps fitting splits and
recursively re-splits oversized ones with the remaining separators. -/
def RecursiveCharacterChunker.recurseSplits (c : RecursiveCharacterChunker)
    (splits : List Split) (next_separators : List Text) : List Split :=
  match splits with
  | [] => []
  | s :: rest =>
    (if c.length_function s.text ≤ c.chunk_size then [s]
     else RecursiveCharacterChunker.splitTextWithIndices c s.text next_separators s.start_index) ++
      RecursiveCharacterChunker.recurseSplits c rest next_separators
termination_by (sepsMeasure next_separators, splits.length + 1)

end

/-- Python `"".join(p.text for p in current_chunk_parts)`. -/
def joinSplits (parts : List Split) : Text := (parts.map Split.text).flatten

/-- Emitting the accumulated `current_chunk_parts` as one chunk triple
`(joined text, first part start index, last part end index)`; the source
guards each emission with `if current_chunk_parts:`. -/
def flushParts (parts : List Split) : List (Text × Nat × Nat) :=
  match parts with
  | [] => []
  | p :: ps =>
    [(joinSplits (p :: ps), p.start_index, ((p :: ps).getLast (List.cons_ne_nil p ps)).end_index)]

/-- The backward overlap selection of `_merge_splits_with_indices`:
`for i in range(len(parts) - 1, -1, -1)` prepending parts while the
accumulated overlap size stays within `chunk_overlap`; consumes the parts in
reverse order and returns `(overlap_parts, overlap_len)`. -/
def takeOverlapRev (f : SizeFn) (ov : Int) : List Split → List Split → Int → List Split × Int
  | [], acc, accLen => (acc, accLen)
  | p :: ps, acc, accLen =>
    if accLen + f p.text > ov then (acc, accLen)
    else takeOverlapRev f ov ps (p :: acc) (accLen + f p.text)

/-- The main loop of `_merge_splits_with_indices` over `splits`, carrying
`current_chunk_parts` and `current_length`. -/
def mergeGo (f : SizeFn) (size ov : Int) : List Split → List Split → Int → List (Text × Nat × Nat)
  | [], cur, _ => flushParts cur
  | s :: rest, cur, curLen =>
    if curLen + f s.text > size ∧ cur ≠ [] then
      let ovr := takeOverlapRev f ov cur.reverse [] 0
      flushParts cur ++ mergeGo f size ov rest (ovr.1 ++ [s]) (ovr.2 + f s.text)
    else
      mergeGo f size ov rest (cur ++ [s]) (curLen + f s.text)

/-- `RecursiveCharacterChunker._merge_splits_with_indices`. -/
def RecursiveCharacterChunker.mergeSplitsWithIndices (c : RecursiveCharacterChunker)
    (splits : List Split) : List (Text × Nat × Nat) :=
  mergeGo c.length_function c.chunk_size c.chunk_overlap splits [] 0

/-- `RecursiveCharacterChunker.chunk`. -/
def RecursiveCharacterChunker.chunk (c : RecursiveCharacterChunker) (t : Text) : List Chunk :=
  if t = [] then []
  else
    let splits := c.splitTextWithIndices t c.separators 0
    let chunk_data := c.mergeSplitsWithIndices splits
    enumMap (fun i d =>
      { text_for_generation := d.1
        chunk_id := i
        start_char_index := d.2.1
        end_char_index := d.2.2
        sequence_number := i
        token_count := c.length_function d.1
        chunking_strategy_used := "recursive_character" }) 0 chunk_data

/-- The `_Sentence` dataclass: a sentence with its character indices. -/
structure Sentence where
  text : Text
  start_index : Nat
  end_index : Nat
deriving Repr, DecidableEq

/-- Configuration of `SentenceChunker`. -/
structure SentenceChunker where
  chunk_size : Int
  chunk_overlap : Int
  length_function : SizeFn
  overlap_sentences : Int

/-- The validation performed by `SentenceChunker.__init__`: the size-based
overlap bound only applies when `overlap_sentences == 0`, and
`overlap_sentences` must be non-negative. -/
def SentenceChunker.initError (chunk_size chunk_overlap overlap_sentences : Int) : Option String :=
  if chunk_size ≤ 0 then some "chunk_size must be a positive integer."
  else if chunk_overlap < 0 then some "chunk_overlap must be a non-negative integer."
  else if chunk_overlap ≥ chunk_size ∧ overlap_sentences = 0 then
    some "chunk_overlap must be smaller than chunk_size."
  else if overlap_sentences < 0 then some "overlap_sentences must be a non-negative integer."
  else none

/-- Python `\s` (ASCII range, which is what every input in the repository
exercises). -/
def isPySpace (ch : Char) : Bool :=
  ch = ' ' || ch = '\t' || ch = '\n' || ch = '\r' || ch = '\x0b' || ch = '\x0c'

/-- Python `\w` (ASCII range): `[a-zA-Z0-9_]`. -/
def isWordChar (ch : Char) : Bool := ch.isAlphanum || ch = '_'

/-- The alternation `\.|\?|\!` of the sentence-boundary pattern. -/
def isSentTerm (ch : Char) : Bool := ch = '.' || ch = '?' || ch = '!'

/-- One position of the sentence-boundary regex
`(?<!\w\.\w.)(?<![A-Z][a-z]\.)(?<=\.|\?|\!)\s`: the character at `i` is
whitespace, preceded by a terminator, and neither negative lookbehind fires
(the `.` in the first lookbehind is the regex any-but-newline). -/
def sentenceBoundaryAt (t : Text) (i : Nat) : Bool :=
  isPySpace (t.getD i '\x00') &&
  (decide (1 ≤ i) && isSentTerm (t.getD (i - 1) '\x00')) &&
  !(decide (4 ≤ i) && isWordChar (t.getD (i - 4) '\x00') && (t.getD (i - 3) '\x00' == '.') &&
    isWordChar (t.getD (i - 2) '\x00') && (t.getD (i - 1) '\x00' != '\n')) &&
  !(decide (3 ≤ i) && (t.getD (i - 3) '\x00').isUpper && (t.getD (i - 2) '\x00').isLower &&
    (t.getD (i - 1) '\x00' == '.'))

/-- `re.finditer(pattern, text)` for the width-one sentence-boundary pattern
yields exactly the matching positions, in increasing order. -/
def sentenceMatches (t : Text) : List Nat := (List.range t.length).filter (sentenceBoundaryAt t)

/-- Python `str.strip()` (ASCII whitespace model). -/
def pyStrip (s : Text) : Text := ((s.dropWhile isPySpace).reverse.dropWhile isPySpace).reverse

/-- Python `str.find`: the least index at which `needle` occurs in `hay`
(`none` for Python `-1`). -/
def pyFind (hay needle : Text) : Option Nat :=
  (List.range (hay.length + 1)).find? (fun j => needle.isPrefixOf (hay.drop j))

/-- The `for match in re.finditer(pattern, text)` loop of
`_split_text_with_regex` plus the trailing `remaining_text` block.  Each match
has width one, so `match.end()` is `m + 1`.  `raw_sentence.find(stripped)` is
non-negative whenever `stripped` is non-empty (it occurs in `raw_sentence`),
so the `getD 0` default is unreachable. -/
def sentencesGo (t : Text) : List Nat → Nat → List Sentence
  | [], last_end =>
    let remaining_text := t.drop last_end
    let stripped := pyStrip remaining_text
    if stripped = [] then []
    else
      let start_index := last_end + (pyFind remaining_text stripped).getD 0
      [{ text := stripped, start_index := start_index,
         end_index := start_index + stripped.length }]
  | m :: ms, last_end =>
    let raw_sentence := pySlice t last_end m
    let stripped := pyStrip raw_sentence
    if stripped = [] then sentencesGo t ms (m + 1)
    else
      let start_index := last_end + (pyFind raw_sentence stripped).getD 0
      { text := stripped, start_index := start_index,
        end_index := start_index + stripped.length } :: sentencesGo t ms (m + 1)

/-- `SentenceChunker._split_text_with_regex`. -/
def splitTextWithRegex (t : Text) : List Sentence := sentencesGo t (sentenceMatches t) 0

/-- Python `" ".join(s.text for s in sents)`. -/
def joinSentences (sents : List Sentence) : Text :=
  List.intercalate [' '] (sents.map Sentence.text)

/-- Emitting the accumulated `current_chunk_sentences` as one chunk triple;
the source guards each emission with `if current_chunk_sentences:`. -/
def flushSents (sents : List Sentence) : List (Text × Nat × Nat) :=
  match sents with
  | [] => []
  | s :: ss =>
    [(joinSentences (s :: ss), s.start_index, ((s :: ss).getLast (List.cons_ne_nil s ss)).end_index)]

/-- Python `current_chunk_sentences[-n:]` for positive `n`. -/
def lastSlice (l : List Sentence) (n : Nat) : List Sentence := l.drop (l.length - n)

/-- The token-based backward overlap scan of `_merge_sentences`:
`for i in range(len(cur) - 1, -1, -1)` prepending sentences while the joined
prospective overlap stays within `chunk_overlap`; consumes the accumulated
sentences in reverse order. -/
def tokenOverlapRev (f : SizeFn) (ov : Int) : List Sentence → List Sentence → List Sentence
  | [], acc => acc
  | s :: ss, acc =>
    if f (joinSentences (s :: acc)) > ov then acc
    else tokenOverlapRev f ov ss (s :: acc)

/-- The overlap seed of `_merge_sentences`: the last `overlap_sentences`
sentences when sentence-count overlap is configured, otherwise the token-based
backward scan. -/
def sentOverlap (c : SentenceChunker) (cur : List Sentence) : List Sentence :=
  if c.overlap_sentences > 0 then lastSlice cur c.overlap_sentences.toNat
  else tokenOverlapRev c.length_function c.chunk_overlap cur.reverse []

/-- The main loop of `SentenceChunker._merge_sentences` over `sentences`,
carrying `current_chunk_sentences`.  Branches in source order: an oversized
sentence flushes and is emitted verbatim; an overflowing sentence flushes,
seeds the overlap, and is either appended to the seed or emitted standalone;
otherwise the sentence joins the accumulation. -/
def mergeSentencesGo (c : SentenceChunker) : List Sentence → List Sentence → List (Text × Nat × Nat)
  | [], cur => flushSents cur
  | s :: rest, cur =>
    if c.length_function s.text > c.chunk_size then
      flushSents cur ++ (s.text, s.start_index, s.end_index) :: mergeSentencesGo c rest []
    else if c.length_function (joinSentences (cur ++ [s])) > c.chunk_size then
      let overlap_sents := sentOverlap c cur
      if c.length_function (joinSentences (overlap_sents ++ [s])) ≤ c.chunk_size then
        flushSents cur ++ mergeSentencesGo c rest (overlap_sents ++ [s])
      else
        flushSents cur ++ (s.text, s.start_index, s.end_index) :: mergeSentencesGo c rest []
    else mergeSentencesGo c rest (cur ++ [s])

/-- `SentenceChunker._merge_sentences`. -/
def SentenceChunker.mergeSentences (c : SentenceChunker) (sentences : List Sentence) :
    List (Text × Nat × Nat) :=
  mergeSentencesGo c sentences []

/-- `SentenceChunker.chunk`. -/
def SentenceChunker.chunk (c : SentenceChunker) (t : Text) : List Chunk :=
  if t = [] then []
  else
    let sentences := splitTextWithRegex t
    let chunk_data := c.mergeSentences sentences
    enumMap (fun i d =>
      { text_for_generation := d.1
        chunk_id := i
        start_char_index := d.2.1
        end_char_index := d.2.2
        sequence_number := i
        token_count := c.length_function d.1
        chunking_strategy_used := "sentence" }) 0 chunk_data

/-- Modelled from the spec: the Chunk Linker of §4.5 and the §2 control flow
(the `_link_chunks` post-pass, which the repository tests exercise and whose
target fields `previous_chunk_id` / `next_chunk_id` are declared in
`models.py`, but whose implementation is not among the provided sources): a
single pass over the final sequence assigning the 0-based `sequence_number`
and the pairwise neighbour links, with the two boundary links left unset. -/
def linkChunks (chunks : List Chunk) : List Chunk :=
  enumMap (fun i ck =>
    { ck with
      sequence_number := i
      previous_chunk_id := if i = 0 then none else (chunks[i - 1]?).map Chunk.chunk_id
      next_chunk_id := (chunks[i + 1]?).map Chunk.chunk_id }) 0 chunks

/-- The default `length_function` of every chunker: Python `len`. -/
def pyLen : SizeFn := fun s => (s.length : Int)

mutual

/-- `_split_text_with_indices` instrumented with an explicit recursion-depth
budget: `splitFuel c fuel` runs out of budget (returning `[]`) once the
nesting of recursive `_split_text_with_indices` calls exceeds `fuel`.  It is
proved below to agree with `splitTextWithIndices` whenever
`fuel > sepsMeasure separators`, which bounds the recursion depth of the
source by the separator-list length. -/
def RecursiveCharacterChunker.splitFuel (c : RecursiveCharacterChunker) :
    Nat → Text → List Text → Nat → List Split
  | 0, _, _, _ => []
  | fuel + 1, t, separators, initial_offset =>
    if t = [] then []
    else
      match separators with
      | [] => []
      | separator :: remaining =>
        if separator = [] then sliceByChunkSize c.chunk_size.toNat t initial_offset 0
        else
          let ms := findLiteralFrom separator t 0
          let final_splits := piecesGo c.keep_separator t initial_offset separator.length ms 0
          RecursiveCharacterChunker.recurseFuel c fuel final_splits
            (if remaining = [] then [[]] else remaining)
termination_by fuel _ _ _ => (fuel, 0, 0)

/-- The `for split in final_splits` loop of the fuel-instrumented split. -/
def RecursiveCharacterChunker.recurseFuel (c : RecursiveCharacterChunker) :
    Nat → List Split → List Text → List Split
  | _, [], _ => []
  | fuel, s :: rest, next_separators =>
    (if c.length_function s.text ≤ c.chunk_size then [s]
     else RecursiveCharacterChunker.splitFuel c fuel s.text next_separators s.start_index) ++
      RecursiveCharacterChunker.recurseFuel c fuel rest next_separators
termination_by fuel splits _ => (fuel, 1, splits.length)

end

/-- A small fixed-size configuration used by concrete witness instances. -/
def witnessFixedCfg : FixedSizeChunker :=
  { chunk_size := 5, chunk_overlap := 1, length_function := pyLen }

/-- A small recursive configuration used by concrete witness instances. -/
def witnessRecCfg : RecursiveCharacterChunker :=
  { chunk_size := 5, chunk_overlap := 1, length_function := pyLen,
    separators := defaultSeparators, keep_separator := true }

/-- A small sentence configuration used by concrete witness instances. -/
def witnessSentCfg : SentenceChunker :=
  { chunk_size := 20, chunk_overlap := 0, length_function := pyLen, overlap_sentences := 0 }

/-- A small input used by concrete witness instances. -/
def witnessText : Text := "ab. cd. ef.".toList

/-- The `limit` of one iteration of the `FixedSizeChunker.chunk` loop (step 2
of the source): the next oversized-character index, or the text length. -/
def fixedLimit (c : FixedSizeChunker) (t : Text) (start : Nat) : Nat :=
  (findNextOversizedFrom c.length_function c.chunk_size t start).getD t.length

/-- The `end_char` of one iteration of the `FixedSizeChunker.chunk` loop
(step 3 of the source). -/
def fixedEnd (c : FixedSizeChunker) (t : Text) (start : Nat) : Nat :=
  if fixedLimit c t start = start then start + 1
  else scanEnd c.length_function c.chunk_size t start (fixedLimit c t start) start

/-- The start of the next window of the `FixedSizeChunker.chunk` loop (step 5
of the source), combining the oversized-boundary case and the two overlap
cases. -/
def fixedNextStart (c : FixedSizeChunker) (t : Text) (start : Nat) : Nat :=
  if findNextOversizedFrom c.length_function c.chunk_size t start = some (fixedEnd c t start) then
    fixedEnd c t start
  else if scanOverlap c.length_function c.chunk_overlap t start (fixedEnd c t start)
      (fixedEnd c t start) ≤ start then
    fixedEnd c t start
  else scanOverlap c.length_function c.chunk_overlap t start (fixedEnd c t start)
    (fixedEnd c t start)

/-- A list of splits is `Chained lo hi` when consecutive fragments are exactly
adjacent — each starts where the previous one ends — beginning at `lo` and
ending at `hi` (the shape produced by the splitter with
`keep_separator = True`). -/
def Chained : Nat → Nat → List Split → Prop
  | lo, hi, [] => lo = hi
  | lo, hi, s :: ss => s.start_index = lo ∧ lo ≤ s.end_index ∧ Chained s.end_index hi ss

/-!
## Theorems

Claim theorems, their witnesses and counterexamples, and the helper lemmas
they share.
-/

/-- C6: constructing any chunker raises a configuration error iff the
configuration is invalid — `size_limit ≤ 0`, `overlap < 0`, or
`overlap ≥ size_limit`, except that `SentenceChunker` with
`overlap_sentences > 0` accepts `overlap ≥ size_limit` and additionally
rejects `overlap_sentences < 0`; valid parameters raise no error. -/
theorem c6_construction_validation (size ov os : Int) :
    ((FixedSizeChunker.initError size ov).isSome ↔ (size ≤ 0 ∨ ov < 0 ∨ ov ≥ size)) ∧
    ((RecursiveCharacterChunker.initError size ov).isSome ↔ (size ≤ 0 ∨ ov < 0 ∨ ov ≥ size)) ∧
    ((SentenceChunker.initError size ov os).isSome ↔
      (size ≤ 0 ∨ ov < 0 ∨ (ov ≥ size ∧ ¬os > 0) ∨ os < 0)) := by
  refine ⟨?_, ?_, ?_⟩
  · unfold FixedSizeChunker.initError
    split_ifs <;> simp <;> omega
  · unfold RecursiveCharacterChunker.initError
    split_ifs <;> simp <;> omega
  · unfold SentenceChunker.initError
    split_ifs <;> simp <;> omega

/-- C7: `FixedSizeChunker` with `size_limit = 10`, `overlap = 3` and the
default length function on `"abcdefghijklmnopqrstuvwxyz"` returns exactly the
four chunks `"abcdefghij"`, `"hijklmnopq"`, `"opqrstuvwx"`, `"vwxyz"` with
start indices 0, 7, 14, 21. -/
theorem c7_fixed_size_scenario :
    (FixedSizeChunker.chunk
        { chunk_size := 10, chunk_overlap := 3, length_function := pyLen }
        "abcdefghijklmnopqrstuvwxyz".toList).map
        (fun ck => (ck.text_for_generation, ck.start_char_index)) =
      [("abcdefghij".toList, 0), ("hijklmnopq".toList, 7), ("opqrstuvwx".toList, 14),
       ("vwxyz".toList, 21)] := by
  simp [FixedSizeChunker.chunk, FixedSizeChunker.chunkGo, findNextOversizedFrom, scanEnd,
    scanOverlap, pySlice, pyLen]

/-- C8: `SentenceChunker` with `size_limit = 14`, `overlap = 4` and the
default length function on `"aaa. bbb. ccc. ddd eee fff."` returns exactly
the two chunks `"aaa. bbb. ccc."` and `"ddd eee fff."`; the trailing sentence,
which does not fit together with the overlap seed, is emitted standalone
rather than dropped. -/
theorem c8_sentence_scenario :
    (SentenceChunker.chunk
        { chunk_size := 14, chunk_overlap := 4, length_function := pyLen,
          overlap_sentences := 0 }
        "aaa. bbb. ccc. ddd eee fff.".toList).map Chunk.text_for_generation =
      ["aaa. bbb. ccc.".toList, "ddd eee fff.".toList] := by
  decide

/-- C1: the merge phase of `RecursiveCharacterChunker` violates the size
bound.  With the default length function, `size_limit = 10` and
`overlap = 9` on `"aaaa bbbb cccccccc dd"`, every atomic split fits within
the limit (so the oversized-atomic-unit rule produces nothing), yet the
returned chunk `"bbbb cccccccc "` has size 14 > 10: after a flush the next
split is appended to the overlap seed without rechecking `size_limit`. -/
theorem c1_recursive_merge_exceeds_size_limit :
    (RecursiveCharacterChunker.chunk
        { chunk_size := 10, chunk_overlap := 9, length_function := pyLen,
          separators := [" ".toList], keep_separator := true }
        "aaaa bbbb cccccccc dd".toList).map
        (fun ck => (ck.text_for_generation, ck.start_char_index, ck.end_char_index)) =
      [("aaaa bbbb ".toList, 0, 10), ("bbbb cccccccc ".toList, 5, 19),
       ("cccccccc dd".toList, 10, 21)] ∧
    pyLen "bbbb cccccccc ".toList = 14 ∧ ((14 : Int) > 10) ∧
    ∀ sp ∈ RecursiveCharacterChunker.splitTextWithIndices
        { chunk_size := 10, chunk_overlap := 9, length_function := pyLen,
          separators := [" ".toList], keep_separator := true }
        "aaaa bbbb cccccccc dd".toList [" ".toList] 0,
      pyLen sp.text ≤ 10 := by
  refine ⟨?_, by decide, by decide, ?_⟩
  · simp [RecursiveCharacterChunker.chunk, RecursiveCharacterChunker.splitTextWithIndices,
      RecursiveCharacterChunker.recurseSplits, RecursiveCharacterChunker.mergeSplitsWithIndices,
      mergeGo, takeOverlapRev, flushParts, joinSplits, piecesGo, findLiteralFrom,
      sliceByChunkSize, pySlice, pyLen, enumMap, List.isPrefixOf]
  · simp [RecursiveCharacterChunker.splitTextWithIndices,
      RecursiveCharacterChunker.recurseSplits, piecesGo, findLiteralFrom, sliceByChunkSize,
      pySlice, pyLen, List.isPrefixOf]

/-- C4: `RecursiveCharacterChunker` returns a chunk with empty text for a
non-empty input: with `keep_separator = False` and separator `"b"` on
`"bb"`, both fragments are empty, and the merge emits the single chunk
`("", 0, 1)`. -/
theorem c4_recursive_empty_chunk_for_nonempty_input :
    ("bb".toList ≠ ([] : Text)) ∧
    (RecursiveCharacterChunker.chunk
        { chunk_size := 10, chunk_overlap := 0, length_function := pyLen,
          separators := ["b".toList], keep_separator := false }
        "bb".toList).map
        (fun ck => (ck.text_for_generation, ck.start_char_index, ck.end_char_index)) =
      [(([] : Text), 0, 1)] := by
  refine ⟨by decide, ?_⟩
  simp [RecursiveCharacterChunker.chunk, RecursiveCharacterChunker.splitTextWithIndices,
    RecursiveCharacterChunker.recurseSplits, RecursiveCharacterChunker.mergeSplitsWithIndices,
    mergeGo, takeOverlapRev, flushParts, joinSplits, piecesGo, findLiteralFrom,
    sliceByChunkSize, pySlice, pyLen, enumMap, List.isPrefixOf]

/-- C2 counterexample: with `keep_separator = False` the separators are
dropped from the chunk texts, so concatenating the returned chunks does not
reproduce the original text: on `"a b"` with separator `" "` the single
returned chunk is `("ab", 0, 3)`, and `"ab" ≠ "a b"` (no overlap
de-duplication is involved — there is only one chunk). -/
theorem c2_counterexample_separator_dropped :
    (RecursiveCharacterChunker.chunk
        { chunk_size := 10, chunk_overlap := 0, length_function := pyLen,
          separators := [" ".toList], keep_separator := false }
        "a b".toList).map
        (fun ck => (ck.text_for_generation, ck.start_char_index, ck.end_char_index)) =
      [("ab".toList, 0, 3)] ∧
    "ab".toList ≠ "a b".toList := by
  refine ⟨?_, by decide⟩
  simp [RecursiveCharacterChunker.chunk, RecursiveCharacterChunker.splitTextWithIndices,
    RecursiveCharacterChunker.recurseSplits, RecursiveCharacterChunker.mergeSplitsWithIndices,
    mergeGo, takeOverlapRev, flushParts, joinSplits, piecesGo, findLiteralFrom,
    sliceByChunkSize, pySlice, pyLen, enumMap, List.isPrefixOf]

/-- Helper: length of `enumMap`. -/
theorem enumMap_length (f : Nat → α → β) : ∀ (i : Nat) (l : List α),
    (enumMap f i l).length = l.length
  | _, [] => rfl
  | i, _ :: as => by simp [enumMap, enumMap_length f (i + 1) as]

/-- Helper: indexing into `enumMap`. -/
theorem enumMap_getElem? (f : Nat → α → β) : ∀ (i : Nat) (l : List α) (j : Nat),
    (enumMap f i l)[j]? = (l[j]?).map (f (i + j))
  | _, [], _ => by simp [enumMap]
  | i, a :: as, 0 => by simp [enumMap]
  | i, a :: as, j + 1 => by
    simp only [enumMap, List.getElem?_cons_succ]
    have harith : i + 1 + j = i + (j + 1) := by omega
    rw [enumMap_getElem? f (i + 1) as j, harith]

/-- Helper: indexing into `linkChunks`. -/
theorem linkChunks_getElem? (l : List Chunk) (j : Nat) :
    (linkChunks l)[j]? = (l[j]?).map (fun ck =>
      { ck with
        sequence_number := j
        previous_chunk_id := if j = 0 then none else (l[j - 1]?).map Chunk.chunk_id
        next_chunk_id := (l[j + 1]?).map Chunk.chunk_id }) := by
  unfold linkChunks
  rw [enumMap_getElem?]
  simp

/-- Helper: the linker output is link-consistent for every input list. -/
theorem linkChunks_consistent (l : List Chunk) :
    (∀ i a b, (linkChunks l)[i]? = some a → (linkChunks l)[i + 1]? = some b →
      a.next_chunk_id = some b.chunk_id ∧ b.previous_chunk_id = some a.chunk_id) ∧
    (∀ a, (linkChunks l).head? = some a → a.previous_chunk_id = none) ∧
    (∀ a, (linkChunks l).getLast? = some a → a.next_chunk_id = none) := by
  refine ⟨?_, ?_, ?_⟩
  · intro i a b ha hb
    rw [linkChunks_getElem?] at ha hb
    rcases hla : l[i]? with _ | ai
    · rw [hla] at ha; simp at ha
    · rcases hlb : l[i + 1]? with _ | bi
      · rw [hlb] at hb; simp at hb
      · rw [hla] at ha
        rw [hlb] at hb
        simp at ha hb
        subst ha hb
        constructor
        · simp [hlb]
        · simp [hla]
  · intro a ha
    rw [List.head?_eq_getElem?, linkChunks_getElem?] at ha
    rcases hla : l[0]? with _ | a0
    · rw [hla] at ha; simp at ha
    · rw [hla] at ha
      simp at ha
      subst ha
      simp
  · intro a ha
    rw [List.getLast?_eq_getElem?, linkChunks_getElem?] at ha
    rcases hla : l[(linkChunks l).length - 1]? with _ | an
    · rw [hla] at ha; simp at ha
    · rw [hla] at ha
      simp at ha
      subst ha
      have hlen : (linkChunks l).length = l.length := enumMap_length _ _ _
      simp only [hlen]
      rcases l with _ | ⟨c0, cs⟩
      · simp at hla
      · have : (c0 :: cs).length - 1 + 1 = (c0 :: cs).length := by simp
        rw [this]
        simp [List.getElem?_eq_none (Nat.le_refl _)]

/-- C3: for every chunker configuration and input, the linked output of each
of the three strategies is internally consistent: adjacent chunks reference
each other by id and the boundary links are unset. -/
theorem c3_link_consistency (cf : FixedSizeChunker) (cr : RecursiveCharacterChunker)
    (cs : SentenceChunker) (t : Text) (l : List Chunk)
    (hl : l = linkChunks (cf.chunk t) ∨ l = linkChunks (cr.chunk t) ∨
      l = linkChunks (cs.chunk t)) :
    (∀ i a b, l[i]? = some a → l[i + 1]? = some b →
      a.next_chunk_id = some b.chunk_id ∧ b.previous_chunk_id = some a.chunk_id) ∧
    (∀ a, l.head? = some a → a.previous_chunk_id = none) ∧
    (∀ a, l.getLast? = some a → a.next_chunk_id = none) := by
  rcases hl with h | h | h <;> · subst h; exact linkChunks_consistent _

/-- Witness for C3 at a concrete configuration and input. -/
theorem c3_link_consistency_witness :
    (∀ i a b, (linkChunks (witnessFixedCfg.chunk witnessText))[i]? = some a →
        (linkChunks (witnessFixedCfg.chunk witnessText))[i + 1]? = some b →
        a.next_chunk_id = some b.chunk_id ∧ b.previous_chunk_id = some a.chunk_id) ∧
    (∀ a, (linkChunks (witnessFixedCfg.chunk witnessText)).head? = some a →
        a.previous_chunk_id = none) ∧
    (∀ a, (linkChunks (witnessFixedCfg.chunk witnessText)).getLast? = some a →
        a.next_chunk_id = none) :=
  c3_link_consistency witnessFixedCfg witnessRecCfg witnessSentCfg witnessText _ (Or.inl rfl)

/-- Helper: the separator list passed to the next recursion level has a
strictly smaller measure. -/
theorem sepsMeasure_next_lt (r : List Text) {s : Text} (hs : ¬s = []) :
    sepsMeasure (if r = [] then [[]] else r) < sepsMeasure (s :: r) := by
  rcases r with _ | ⟨a, as⟩
  · simp [sepsMeasure, hs]
  · rw [if_neg (List.cons_ne_nil a as)]
    have h1 : sepsMeasure (a :: as) ≤ as.length + 1 := by
      simp only [sepsMeasure]
      split <;> omega
    have h2 : sepsMeasure (s :: a :: as) = as.length + 2 := by
      simp [sepsMeasure, hs]
    omega

/-- Helper: the fuel-instrumented split agrees with the actual recursive
split whenever the budget exceeds the separator-list measure. -/
theorem splitFuel_eq (c : RecursiveCharacterChunker) (fuel : Nat) :
    (∀ t seps off, sepsMeasure seps < fuel →
      c.splitFuel fuel t seps off = c.splitTextWithIndices t seps off) ∧
    (∀ splits seps, sepsMeasure seps < fuel →
      c.recurseFuel fuel splits seps = c.recurseSplits splits seps) := by
  induction fuel with
  | zero =>
    exact ⟨fun _ _ _ h => absurd h (Nat.not_lt_zero _),
      fun _ _ h => absurd h (Nat.not_lt_zero _)⟩
  | succ fuel ih =>
    have hsplit : ∀ t seps off, sepsMeasure seps < fuel + 1 →
        c.splitFuel (fuel + 1) t seps off = c.splitTextWithIndices t seps off := by
      intro t seps off h
      rw [RecursiveCharacterChunker.splitFuel.eq_def,
        RecursiveCharacterChunker.splitTextWithIndices.eq_def]
      dsimp only
      by_cases ht : t = []
      · simp [ht]
      · simp only [if_neg ht]
        rcases seps with _ | ⟨sep, rem⟩
        · rfl
        · by_cases hsep : sep = []
          · simp [hsep]
          · simp only [if_neg hsep]
            apply ih.2
            have hlt := sepsMeasure_next_lt rem hsep
            omega
    refine ⟨hsplit, ?_⟩
    intro splits seps h
    induction splits with
    | nil =>
      rw [RecursiveCharacterChunker.recurseFuel.eq_def, RecursiveCharacterChunker.recurseSplits.eq_def]
    | cons s rest ihs =>
      rw [RecursiveCharacterChunker.recurseFuel.eq_def, RecursiveCharacterChunker.recurseSplits.eq_def]
      dsimp only
      rw [ihs]
      by_cases hle : c.length_function s.text ≤ c.chunk_size
      · simp [hle]
      · simp only [if_neg hle]
        rw [hsplit _ _ _ h]

/-- C9: the recursive split of `RecursiveCharacterChunker` terminates for
every input, size function and separator list: its recursion depth is
bounded by the separator-list measure (which is at most the list length), as
witnessed by agreement with the fuel-instrumented split for any budget above
the measure; and an empty fragment — even one a pathological size function
reports as oversized — is never re-split: splitting empty text returns `[]`
at once. -/
theorem c9_split_recursion_depth_bounded (c : RecursiveCharacterChunker) (t : Text)
    (separators : List Text) (off fuel : Nat) (h : sepsMeasure separators < fuel) :
    c.splitFuel fuel t separators off = c.splitTextWithIndices t separators off ∧
    sepsMeasure separators ≤ separators.length ∧
    c.splitTextWithIndices [] separators off = [] := by
  refine ⟨(splitFuel_eq c fuel).1 t separators off h, ?_, ?_⟩
  · rcases separators with _ | ⟨s, r⟩
    · simp [sepsMeasure]
    · simp only [sepsMeasure, List.length_cons]
      split <;> omega
  · rw [RecursiveCharacterChunker.splitTextWithIndices.eq_def]
    simp

/-- Witness for C9 at a concrete configuration, budget and input. -/
theorem c9_split_recursion_depth_bounded_witness :
    sepsMeasure defaultSeparators < 8 ∧
    (witnessRecCfg.splitFuel 8 witnessText defaultSeparators 0 =
        witnessRecCfg.splitTextWithIndices witnessText defaultSeparators 0 ∧
      sepsMeasure defaultSeparators ≤ defaultSeparators.length ∧
      witnessRecCfg.splitTextWithIndices [] defaultSeparators 0 = []) :=
  ⟨by decide, c9_split_recursion_depth_bounded witnessRecCfg witnessText defaultSeparators 0 8
    (by decide)⟩

/-- Helper: length of a Python slice. -/
theorem pySlice_length (t : Text) (a b : Nat) : (pySlice t a b).length = min b t.length - a := by
  simp [pySlice]

/-- Helper: a slice with room on both sides is non-empty. -/
theorem pySlice_ne_nil_of_lt {t : Text} {a b : Nat} (h1 : a < b) (h2 : a < t.length) :
    pySlice t a b ≠ [] := by
  intro h
  have hlen := congrArg List.length h
  rw [pySlice_length] at hlen
  simp at hlen
  omega

/-- Helper: the forward scan never moves backwards. -/
theorem scanEnd_ge (f : SizeFn) (size : Int) (t : Text) (start lim : Nat) :
    ∀ e, e ≤ scanEnd f size t start lim e := by
  intro e
  induction e using scanEnd.induct f size t start lim with
  | case1 e he hbig =>
    rw [scanEnd]
    simp only [dif_pos he, if_pos hbig]
    exact Nat.le_refl e
  | case2 e he hbig ih =>
    rw [scanEnd]
    simp only [dif_pos he, if_neg hbig]
    omega
  | case3 e he =>
    rw [scanEnd]
    simp only [dif_neg he]
    exact Nat.le_refl e

/-- Helper: the forward scan never passes the limit. -/
theorem scanEnd_le (f : SizeFn) (size : Int) (t : Text) (start lim : Nat) :
    ∀ e, e ≤ lim → scanEnd f size t start lim e ≤ lim := by
  intro e
  induction e using scanEnd.induct f size t start lim with
  | case1 e he hbig =>
    intro _
    rw [scanEnd]
    simp only [dif_pos he, if_pos hbig]
    omega
  | case2 e he hbig ih =>
    intro _
    rw [scanEnd]
    simp only [dif_pos he, if_neg hbig]
    exact ih (by omega)
  | case3 e he =>
    intro hle
    rw [scanEnd]
    simp only [dif_neg he]
    exact hle

/-- Helper: if the first extension fits, the forward scan advances at least
one character. -/
theorem scanEnd_ge_succ (f : SizeFn) (size : Int) (t : Text) (start lim e : Nat)
    (he : e < lim) (h2 : ¬f (pySlice t start (e + 1)) > size) :
    e + 1 ≤ scanEnd f size t start lim e := by
  rw [scanEnd]
  simp only [dif_pos he, if_neg h2]
  exact scanEnd_ge f size t start lim (e + 1)

/-- Helper: a successful oversized-character scan returns the first oversized
index at or after the scan origin. -/
theorem findNextOversizedFrom_some (f : SizeFn) (size : Int) (t : Text) :
    ∀ i j, findNextOversizedFrom f size t i = some j →
      i ≤ j ∧ j < t.length ∧ f (pySlice t j (j + 1)) > size ∧
        ∀ k, i ≤ k → k < j → ¬f (pySlice t k (k + 1)) > size := by
  intro i
  induction i using findNextOversizedFrom.induct f size t with
  | case1 i hi hbig =>
    intro j hj
    rw [findNextOversizedFrom] at hj
    simp only [dif_pos hi, if_pos hbig] at hj
    cases hj
    exact ⟨Nat.le_refl _, hi, hbig, fun k hk1 hk2 => absurd hk1 (by omega)⟩
  | case2 i hi hbig ih =>
    intro j hj
    rw [findNextOversizedFrom] at hj
    simp only [dif_pos hi, if_neg hbig] at hj
    rcases ih j hj with ⟨h1, h2, h3, h4⟩
    refine ⟨by omega, h2, h3, ?_⟩
    intro k hk1 hk2
    rcases Nat.eq_or_lt_of_le hk1 with rfl | hk
    · exact hbig
    · exact h4 k (by omega) hk2
  | case3 i hi =>
    intro j hj
    rw [findNextOversizedFrom] at hj
    simp only [dif_neg hi] at hj
    exact absurd hj (by simp)

/-- Helper: a failed oversized-character scan means no character from the
origin on is oversized. -/
theorem findNextOversizedFrom_none (f : SizeFn) (size : Int) (t : Text) :
    ∀ i, findNextOversizedFrom f size t i = none →
      ∀ k, i ≤ k → k < t.length → ¬f (pySlice t k (k + 1)) > size := by
  intro i
  induction i using findNextOversizedFrom.induct f size t with
  | case1 i hi hbig =>
    intro hn
    rw [findNextOversizedFrom] at hn
    simp [dif_pos hi, if_pos hbig] at hn
  | case2 i hi hbig ih =>
    intro hn k hk1 hk2
    rw [findNextOversizedFrom] at hn
    simp only [dif_pos hi, if_neg hbig] at hn
    rcases Nat.eq_or_lt_of_le hk1 with rfl | hk
    · exact hbig
    · exact ih hn k (by omega) hk2
  | case3 i hi =>
    intro _ k hk1 hk2
    exact absurd (by omega : i < t.length) hi

/-- Helper: the backward overlap scan never moves forward. -/
theorem scanOverlap_le (f : SizeFn) (ov : Int) (t : Text) (start e : Nat) :
    ∀ so, scanOverlap f ov t start e so ≤ so := by
  intro so
  induction so using scanOverlap.induct f ov t start e with
  | case1 so hso hbig =>
    rw [scanOverlap]
    simp only [dif_pos hso, if_pos hbig]
    exact Nat.le_refl so
  | case2 so hso hbig ih =>
    rw [scanOverlap]
    simp only [dif_pos hso, if_neg hbig]
    omega
  | case3 so hso =>
    rw [scanOverlap]
    simp only [dif_neg hso]
    exact Nat.le_refl so

/-- Helper: the scan limit is at or after the window start. -/
theorem fixedLimit_ge (c : FixedSizeChunker) (t : Text) (start : Nat)
    (hstart : start < t.length) : start ≤ fixedLimit c t start := by
  unfold fixedLimit
  rcases h : findNextOversizedFrom c.length_function c.chunk_size t start with _ | j
  · simp
    omega
  · simpa using (findNextOversizedFrom_some c.length_function c.chunk_size t start j h).1

/-- Helper: the scan limit is within the text. -/
theorem fixedLimit_le (c : FixedSizeChunker) (t : Text) (start : Nat) :
    fixedLimit c t start ≤ t.length := by
  unfold fixedLimit
  rcases h : findNextOversizedFrom c.length_function c.chunk_size t start with _ | j
  · simp
  · simpa using Nat.le_of_lt (findNextOversizedFrom_some c.length_function c.chunk_size t
      start j h).2.1

/-- Helper: each window properly advances: `start < end_char`. -/
theorem fixedEnd_gt (c : FixedSizeChunker) (t : Text) (start : Nat)
    (hstart : start < t.length) : start < fixedEnd c t start := by
  unfold fixedEnd
  by_cases h : fixedLimit c t start = start
  · simp [h]
  · have hlim : start < fixedLimit c t start :=
      Nat.lt_of_le_of_ne (fixedLimit_ge c t start hstart) (Ne.symm h)
    have hnotbig : ¬c.length_function (pySlice t start (start + 1)) > c.chunk_size := by
      unfold fixedLimit at hlim h
      rcases hf : findNextOversizedFrom c.length_function c.chunk_size t start with _ | j
      · exact findNextOversizedFrom_none c.length_function c.chunk_size t start hf start
          (Nat.le_refl start) hstart
      · rw [hf] at hlim
        simp at hlim
        exact (findNextOversizedFrom_some c.length_function c.chunk_size t start j
          hf).2.2.2 start (Nat.le_refl start) hlim
    rw [if_neg h]
    exact Nat.lt_of_lt_of_le (Nat.lt_succ_self start)
      (scanEnd_ge_succ c.length_function c.chunk_size t start (fixedLimit c t start) start
        hlim hnotbig)

/-- Helper: each window end stays within the text. -/
theorem fixedEnd_le (c : FixedSizeChunker) (t : Text) (start : Nat)
    (hstart : start < t.length) : fixedEnd c t start ≤ t.length := by
  unfold fixedEnd
  by_cases h : fixedLimit c t start = start
  · rw [if_pos h]
    omega
  · rw [if_neg h]
    exact Nat.le_trans
      (scanEnd_le c.length_function c.chunk_size t start (fixedLimit c t start) start
        (fixedLimit_ge c t start hstart))
      (fixedLimit_le c t start)

/-- Helper: the next window starts strictly after the current one. -/
theorem fixedNextStart_gt (c : FixedSizeChunker) (t : Text) (start : Nat)
    (hstart : start < t.length) : start < fixedNextStart c t start := by
  unfold fixedNextStart
  split_ifs with h1 h2
  · exact fixedEnd_gt c t start hstart
  · exact fixedEnd_gt c t start hstart
  · omega

/-- Helper: the next window starts no later than the current window end. -/
theorem fixedNextStart_le_end (c : FixedSizeChunker) (t : Text) (start : Nat) :
    fixedNextStart c t start ≤ fixedEnd c t start := by
  unfold fixedNextStart
  split_ifs with h1 h2
  · exact Nat.le_refl _
  · exact Nat.le_refl _
  · exact scanOverlap_le c.length_function c.chunk_overlap t start (fixedEnd c t start)
      (fixedEnd c t start)

/-- Helper: one unfolding of the `FixedSizeChunker.chunk` loop in terms of
the window helpers: the loop always emits the window chunk and continues from
`fixedNextStart` unless the window reaches the end of the text. -/
theorem chunkGo_cons (c : FixedSizeChunker) (t : Text) (start seq : Nat)
    (hstart : start < t.length) :
    c.chunkGo t start seq =
      { text_for_generation := pySlice t start (fixedEnd c t start)
        chunk_id := seq
        start_char_index := start
        end_char_index := fixedEnd c t start
        sequence_number := seq
        token_count := c.length_function (pySlice t start (fixedEnd c t start))
        chunking_strategy_used := "fixed_size" } ::
      (if fixedEnd c t start = t.length then []
       else c.chunkGo t (fixedNextStart c t start) (seq + 1)) := by
  have hne : pySlice t start (fixedEnd c t start) ≠ [] :=
    pySlice_ne_nil_of_lt (fixedEnd_gt c t start hstart) hstart
  rw [FixedSizeChunker.chunkGo]
  simp only [dif_pos hstart]
  have hE : (if (findNextOversizedFrom c.length_function c.chunk_size t start).getD t.length =
        start then start + 1
      else scanEnd c.length_function c.chunk_size t start
        ((findNextOversizedFrom c.length_function c.chunk_size t start).getD t.length) start) =
      fixedEnd c t start := by
    rw [fixedEnd, fixedLimit]
  simp only [hE]
  rw [dif_neg (show ¬pySlice t start (fixedEnd c t start) = [] from hne)]
  by_cases hend : fixedEnd c t start = t.length
  · simp only [if_pos hend]
  · simp only [if_neg hend]
    unfold fixedNextStart
    by_cases hov : findNextOversizedFrom c.length_function c.chunk_size t start =
        some (fixedEnd c t start)
    · simp only [if_pos hov]
    · simp only [if_neg hov]

/-- Helper: the master invariant of the `FixedSizeChunker.chunk` loop: from
any in-range window start, every emitted chunk is an in-bounds, non-empty,
exact slice of the input with its measured size; starts strictly increase;
each chunk starts no later than its predecessor ends; the first chunk starts
at the window start; the last chunk ends at the text end; and every position
from the window start on is covered by some chunk. -/
theorem chunkGo_spec (c : FixedSizeChunker) (t : Text) :
    ∀ n start seq, t.length - start ≤ n → start < t.length →
      (∀ ck ∈ c.chunkGo t start seq,
        start ≤ ck.start_char_index ∧ ck.start_char_index < ck.end_char_index ∧
        ck.end_char_index ≤ t.length ∧
        ck.text_for_generation = pySlice t ck.start_char_index ck.end_char_index ∧
        ck.token_count = c.length_function ck.text_for_generation) ∧
      (∀ ck, (c.chunkGo t start seq).head? = some ck → ck.start_char_index = start) ∧
      c.chunkGo t start seq ≠ [] ∧
      List.Pairwise (fun a b => a.start_char_index < b.start_char_index)
        (c.chunkGo t start seq) ∧
      List.Chain' (fun a b => b.start_char_index ≤ a.end_char_index) (c.chunkGo t start seq) ∧
      (∀ ck, (c.chunkGo t start seq).getLast? = some ck → ck.end_char_index = t.length) ∧
      (∀ p, start ≤ p → p < t.length → ∃ ck ∈ c.chunkGo t start seq,
        ck.start_char_index ≤ p ∧ p < ck.end_char_index) := by
  intro n
  induction n with
  | zero =>
    intro start seq hn hstart
    omega
  | succ n ih =>
    intro start seq hn hstart
    rw [chunkGo_cons c t start seq hstart]
    by_cases hend : fixedEnd c t start = t.length
    · simp only [if_pos hend]
      refine ⟨?_, ?_, ?_, ?_, ?_, ?_, ?_⟩
      · intro ck hck
        simp at hck
        subst hck
        exact ⟨Nat.le_refl _, fixedEnd_gt c t start hstart, fixedEnd_le c t start hstart,
          rfl, rfl⟩
      · intro ck hck
        simp at hck
        subst hck
        rfl
      · simp
      · simp
      · simp
      · intro ck hck
        simp at hck
        subst hck
        exact hend
      · intro p hp1 hp2
        refine ⟨_, List.mem_singleton_self _, hp1, ?_⟩
        show p < fixedEnd c t start
        omega
    · simp only [if_neg hend]
      have hnext_lt : fixedNextStart c t start < t.length :=
        Nat.lt_of_le_of_lt (fixedNextStart_le_end c t start)
          (Nat.lt_of_le_of_ne (fixedEnd_le c t start hstart) hend)
      have hnext_gt := fixedNextStart_gt c t start hstart
      have hmeas : t.length - fixedNextStart c t start ≤ n := by omega
      obtain ⟨ihmem, ihhead, ihne, ihpw, ihchain, ihlast, ihcov⟩ :=
        ih (fixedNextStart c t start) (seq + 1) hmeas hnext_lt
      refine ⟨?_, ?_, ?_, ?_, ?_, ?_, ?_⟩
      · intro ck hck
        rcases List.mem_cons.mp hck with rfl | hmem
        · exact ⟨Nat.le_refl _, fixedEnd_gt c t start hstart, fixedEnd_le c t start hstart,
            rfl, rfl⟩
        · obtain ⟨h1, h2, h3, h4, h5⟩ := ihmem ck hmem
          exact ⟨by omega, h2, h3, h4, h5⟩
      · intro ck hck
        simp at hck
        subst hck
        rfl
      · simp
      · refine List.pairwise_cons.mpr ⟨?_, ihpw⟩
        intro ck' hck'
        have := (ihmem ck' hck').1
        simp only []
        omega
      · refine List.chain'_cons'.mpr ⟨?_, ihchain⟩
        intro y hy
        have hys := ihhead y hy
        have := fixedNextStart_le_end c t start
        simp only []
        omega
      · obtain ⟨r0, rs, hrec⟩ := List.exists_cons_of_ne_nil ihne
        rw [hrec]
        intro ck hck
        rw [List.getLast?_cons_cons] at hck
        exact ihlast ck (by rw [hrec]; exact hck)
      · intro p hp1 hp2
        by_cases hpe : p < fixedEnd c t start
        · exact ⟨_, List.mem_cons_self _ _, hp1, hpe⟩
        · have hple : fixedNextStart c t start ≤ p :=
            Nat.le_trans (fixedNextStart_le_end c t start) (by omega)
          obtain ⟨ck', hck', h1, h2⟩ := ihcov p hple hp2
          exact ⟨ck', List.mem_cons_of_mem _ hck', h1, h2⟩

/-- Helper: slicing to the end of the text is dropping. -/
theorem pySlice_of_length_le (t : Text) (a b : Nat) (h : t.length ≤ b) :
    pySlice t a b = t.drop a := by
  simp [pySlice, List.take_of_length_le h]

/-- Helper: adjacent slices concatenate. -/
theorem pySlice_append (t : Text) (a m b : Nat) (h1 : a ≤ m) (h2 : m ≤ b) :
    pySlice t a m ++ pySlice t m b = pySlice t a b := by
  apply List.ext_getElem
  · simp [pySlice]
    omega
  · intro i h3 h4
    simp only [pySlice] at h3 h4 ⊢
    rcases Nat.lt_or_ge i ((t.take m).drop a).length with hi | hi
    · rw [List.getElem_append_left hi]
      simp only [List.getElem_drop, List.getElem_take]
    · rw [List.getElem_append_right hi]
      simp only [List.getElem_drop, List.getElem_take]
      congr 1
      simp at h3 hi ⊢
      omega

/-- Helper: a slice of a slice is a slice of the original. -/
theorem pySlice_pySlice (orig : Text) (off hi a b : Nat) (hhi : hi ≤ orig.length)
    (hoff : off ≤ hi) (hb : b ≤ hi - off) :
    pySlice (pySlice orig off hi) a b = pySlice orig (off + a) (off + b) := by
  apply List.ext_getElem
  · simp [pySlice]
    omega
  · intro i h3 h4
    simp only [pySlice, List.getElem_drop, List.getElem_take]
    simp [pySlice] at h3 h4
    congr 1
    omega

/-- Helper: characters of a slice are characters of the original. -/
theorem pySlice_getElem (t : Text) (a b i : Nat) (h : i < (pySlice t a b).length) :
    (pySlice t a b).get ⟨i, h⟩ = t.get ⟨a + i, by simp [pySlice] at h ⊢; omega⟩ := by
  simp only [pySlice, List.get_eq_getElem, List.getElem_drop, List.getElem_take]

/-- Helper: membership transfer into `enumMap`. -/
theorem enumMap_forall {α β : Type} {P : β → Prop} (f : Nat → α → β) :
    ∀ (i : Nat) (l : List α), (∀ j, ∀ x ∈ l, P (f j x)) → ∀ a ∈ enumMap f i l, P a := by
  intro i l
  induction l generalizing i with
  | nil => intro _ a ha; simp [enumMap] at ha
  | cons x xs ih =>
    intro h a ha
    rcases List.mem_cons.mp ha with rfl | hmem
    · exact h i x (List.mem_cons_self x xs)
    · exact ih (i + 1) (fun j y hy => h j y (List.mem_cons_of_mem _ hy)) a hmem

/-- Helper: existence transfer into `enumMap`. -/
theorem enumMap_exists {α β : Type} (f : Nat → α → β) :
    ∀ (i : Nat) (l : List α) (x : α), x ∈ l → ∃ j, f j x ∈ enumMap f i l := by
  intro i l
  induction l generalizing i with
  | nil => intro x hx; simp at hx
  | cons y ys ih =>
    intro x hx
    rcases List.mem_cons.mp hx with rfl | hmem
    · exact ⟨i, List.mem_cons_self _ _⟩
    · obtain ⟨j, hj⟩ := ih (i + 1) x hmem
      exact ⟨j, List.mem_cons_of_mem _ hj⟩

/-- Helper: pairwise transfer into `enumMap`. -/
theorem enumMap_pairwise {α β : Type} {R : α → α → Prop} {S : β → β → Prop}
    (f : Nat → α → β) (h : ∀ j k x y, R x y → S (f j x) (f k y)) :
    ∀ (i : Nat) (l : List α), List.Pairwise R l → List.Pairwise S (enumMap f i l) := by
  intro i l
  induction l generalizing i with
  | nil => intro _; simp [enumMap]
  | cons x xs ih =>
    intro hpw
    rcases List.pairwise_cons.mp hpw with ⟨hx, hxs⟩
    refine List.pairwise_cons.mpr ⟨?_, ih (i + 1) hxs⟩
    intro b hb
    have hsrc : ∀ a ∈ enumMap f (i + 1) xs, ∃ j y, y ∈ xs ∧ a = f j y :=
      enumMap_forall (P := fun a => ∃ j y, y ∈ xs ∧ a = f j y) f (i + 1) xs
        (fun j y hy => ⟨j, y, hy, rfl⟩)
    obtain ⟨j, y, hy, rfl⟩ := hsrc b hb
    exact h i j x y (hx y hy)

/-- Helper: an empty slice. -/
theorem pySlice_self (t : Text) (a : Nat) : pySlice t a a = [] := by
  apply List.eq_nil_of_length_eq_zero
  rw [pySlice_length]
  omega

/-- Helper: the whole text as a slice. -/
theorem pySlice_zero_length (t : Text) : pySlice t 0 t.length = t := by
  simp [pySlice]

/-- Helper: chained lists concatenate. -/
theorem Chained.append : ∀ {l1 l2 : List Split} {a m b : Nat},
    Chained a m l1 → Chained m b l2 → Chained a b (l1 ++ l2) := by
  intro l1
  induction l1 with
  | nil =>
    intro l2 a m b h1 h2
    simp only [Chained] at h1
    subst h1
    simpa using h2
  | cons s ss ih =>
    intro l2 a m b h1 h2
    obtain ⟨hs, hle, hrest⟩ := h1
    exact ⟨hs, hle, ih hrest h2⟩

/-- Helper: a chained list runs from a lower to a not-smaller upper bound. -/
theorem Chained.le : ∀ {l : List Split} {a b : Nat}, Chained a b l → a ≤ b := by
  intro l
  induction l with
  | nil => intro a b h; simp only [Chained] at h; omega
  | cons s ss ih =>
    intro a b h
    obtain ⟨hs, hle, hrest⟩ := h
    exact Nat.le_trans hle (ih hrest)

/-- Helper: members of a chained list stay within its bounds. -/
theorem Chained.bounds : ∀ {l : List Split} {a b : Nat}, Chained a b l →
    ∀ s ∈ l, a ≤ s.start_index ∧ s.start_index ≤ s.end_index ∧ s.end_index ≤ b := by
  intro l
  induction l with
  | nil => intro a b _ s hs; simp at hs
  | cons s0 ss ih =>
    intro a b h s hs
    obtain ⟨hs0, hle, hrest⟩ := h
    rcases List.mem_cons.mp hs with rfl | hmem
    · exact ⟨Nat.le_of_eq hs0.symm, by omega, hrest.le⟩
    · obtain ⟨h1, h2, h3⟩ := ih hrest s hmem
      exact ⟨by omega, h2, h3⟩

/-- Helper: a chained list covers every position between its bounds. -/
theorem Chained.coverage : ∀ {l : List Split} {a b : Nat}, Chained a b l →
    ∀ p, a ≤ p → p < b → ∃ s ∈ l, s.start_index ≤ p ∧ p < s.end_index := by
  intro l
  induction l with
  | nil => intro a b h p h1 h2; simp only [Chained] at h; omega
  | cons s0 ss ih =>
    intro a b h p h1 h2
    obtain ⟨hs0, hle, hrest⟩ := h
    by_cases hp : p < s0.end_index
    · exact ⟨s0, List.mem_cons_self _ _, by omega, hp⟩
    · obtain ⟨s, hmem, hs1, hs2⟩ := ih hrest p (by omega) h2
      exact ⟨s, List.mem_cons_of_mem _ hmem, hs1, hs2⟩

/-- Helper: the first fragment of a chained list starts at the lower bound. -/
theorem Chained.head : ∀ {l : List Split} {a b : Nat}, Chained a b l →
    ∀ s, l.head? = some s → s.start_index = a := by
  intro l a b h s hs
  cases l with
  | nil => simp at hs
  | cons s0 ss =>
    simp at hs
    subst hs
    exact h.1

/-- Helper: the last fragment of a chained list ends at the upper bound. -/
theorem Chained.getLast? : ∀ {l : List Split} {a b : Nat}, Chained a b l →
    ∀ s, l.getLast? = some s → s.end_index = b := by
  intro l
  induction l with
  | nil => intro a b _ s hs; simp at hs
  | cons s0 ss ih =>
    intro a b h s hs
    obtain ⟨hs0, hle, hrest⟩ := h
    cases ss with
    | nil =>
      simp at hs
      subst hs
      simpa [Chained] using hrest
    | cons s1 ss1 =>
      rw [List.getLast?_cons_cons] at hs
      exact ih hrest s hs

/-- Helper: every suffix of a chained list is chained from some midpoint. -/
theorem Chained.suffix : ∀ {l1 l2 : List Split} {a b : Nat},
    Chained a b (l1 ++ l2) → ∃ m, Chained m b l2 := by
  intro l1
  induction l1 with
  | nil => intro l2 a b h; exact ⟨a, h⟩
  | cons s ss ih =>
    intro l2 a b h
    exact ih h.2.2

/-- Helper: the joined text of a chained list of exact slices is the exact
slice between the bounds. -/
theorem joinSplits_chained (orig : Text) : ∀ (l : List Split) (a b : Nat),
    Chained a b l → (∀ s ∈ l, s.text = pySlice orig s.start_index s.end_index) →
    joinSplits l = pySlice orig a b := by
  intro l
  induction l with
  | nil =>
    intro a b h _
    simp only [Chained] at h
    subst h
    simp [joinSplits, pySlice_self]
  | cons s ss ih =>
    intro a b h hfid
    obtain ⟨hs, hle, hrest⟩ := h
    have h1 : joinSplits (s :: ss) = s.text ++ joinSplits ss := by
      simp [joinSplits]
    rw [h1, hfid s (List.mem_cons_self _ _), ih s.end_index b hrest
      (fun x hx => hfid x (List.mem_cons_of_mem _ hx)), hs]
    exact pySlice_append orig a s.end_index b (by omega) hrest.le

/-- Helper: the overlap selection returns a suffix of the reversed input
prepended to the accumulator. -/
theorem takeOverlapRev_shape (f : SizeFn) (ov : Int) : ∀ (rev acc : List Split) (accLen : Int),
    ∃ k, (takeOverlapRev f ov rev acc accLen).1 = (rev.take k).reverse ++ acc := by
  intro rev
  induction rev with
  | nil => intro acc accLen; exact ⟨0, by simp [takeOverlapRev]⟩
  | cons p ps ih =>
    intro acc accLen
    rw [takeOverlapRev]
    by_cases hbr : accLen + f p.text > ov
    · rw [if_pos hbr]
      exact ⟨0, by simp⟩
    · rw [if_neg hbr]
      obtain ⟨k, hk⟩ := ih (p :: acc) (accLen + f p.text)
      refine ⟨k + 1, ?_⟩
      rw [hk]
      simp

/-- Helper: the overlap selection over the reversed accumulation is a suffix
of the accumulation. -/
theorem takeOverlapRev_suffix (f : SizeFn) (ov : Int) (cur : List Split) :
    (takeOverlapRev f ov cur.reverse [] 0).1 <:+ cur := by
  obtain ⟨k, hk⟩ := takeOverlapRev_shape f ov cur.reverse [] 0
  rw [hk, List.append_nil]
  refine ⟨(cur.reverse.drop k).reverse, ?_⟩
  rw [← List.reverse_append, List.take_append_drop, List.reverse_reverse]

/-- Helper: literal matches lie in range, are spaced at least a separator
apart, and leave room for the separator. -/
theorem findLiteralFrom_spec (sep t : Text) :
    ∀ i, (∀ m ∈ findLiteralFrom sep t i, i ≤ m ∧ m + sep.length ≤ t.length) ∧
      List.Pairwise (fun a b => a + sep.length ≤ b) (findLiteralFrom sep t i) := by
  intro i
  induction i using findLiteralFrom.induct sep t with
  | case1 i hi hm ih =>
    have hunf : findLiteralFrom sep t i = i :: findLiteralFrom sep t (i + sep.length) := by
      rw [findLiteralFrom]
      simp only [dif_pos hi, dif_pos hm]
    constructor
    · intro m hmem
      rw [hunf] at hmem
      rcases List.mem_cons.mp hmem with rfl | hmem2
      · refine ⟨Nat.le_refl _, ?_⟩
        have hpre : sep <+: t.drop m := List.isPrefixOf_iff_prefix.mp hm.2
        have := hpre.length_le
        simp at this
        omega
      · have := ih.1 m hmem2
        omega
    · rw [hunf]
      refine List.pairwise_cons.mpr ⟨?_, ih.2⟩
      intro b hb
      exact (ih.1 b hb).1
  | case2 i hi hm ih =>
    have hunf : findLiteralFrom sep t i = findLiteralFrom sep t (i + 1) := by
      rw [findLiteralFrom]
      simp only [dif_pos hi, dif_neg hm]
    rw [hunf]
    refine ⟨?_, ih.2⟩
    intro m hmem
    have := ih.1 m hmem
    omega
  | case3 i hi =>
    have hunf : findLiteralFrom sep t i = [] := by
      rw [findLiteralFrom]
      simp only [dif_neg hi]
    rw [hunf]
    simp

/-- Helper: pieces built from spaced matches are in-bounds, ordered, disjoint,
and carry exact lengths. -/
theorem piecesGo_bounds (keep : Bool) (t : Text) (off sepLen : Nat) :
    ∀ ms last_end,
      (∀ m ∈ ms, last_end ≤ m ∧ m + sepLen ≤ t.length) →
      List.Pairwise (fun a b => a + sepLen ≤ b) ms →
      last_end ≤ t.length →
      (∀ s ∈ piecesGo keep t off sepLen ms last_end,
        off + last_end ≤ s.start_index ∧ s.start_index ≤ s.end_index ∧
        s.end_index ≤ off + t.length ∧ s.end_index = s.start_index + s.text.length) ∧
      List.Pairwise (fun a b => a.end_index ≤ b.start_index)
        (piecesGo keep t off sepLen ms last_end) := by
  intro ms
  induction ms with
  | nil =>
    intro last_end _ _ hle
    constructor
    · intro s hs
      simp only [piecesGo] at hs
      by_cases hlt : last_end < t.length
      · rw [if_pos hlt] at hs
        simp at hs
        subst hs
        simp only []
        constructor
        · omega
        constructor
        · omega
        constructor
        · omega
        · simp
          omega
      · rw [if_neg hlt] at hs
        simp at hs
    · simp only [piecesGo]
      split <;> simp
  | cons m ms ih =>
    intro last_end hms hpw hle
    have hm := hms m (List.mem_cons_self _ _)
    have hms2 : ∀ m2 ∈ ms, m + sepLen ≤ m2 ∧ m2 + sepLen ≤ t.length := by
      intro m2 hm2
      exact ⟨(List.pairwise_cons.mp hpw).1 m2 hm2, (hms m2 (List.mem_cons_of_mem _ hm2)).2⟩
    have hih := ih (m + sepLen)
      (fun m2 hm2 => ⟨(hms2 m2 hm2).1, (hms2 m2 hm2).2⟩)
      (List.pairwise_cons.mp hpw).2 (by omega)
    by_cases hkeep : keep = true
    · subst hkeep
      have hunf : piecesGo true t off sepLen (m :: ms) last_end =
          { text := pySlice t last_end (m + sepLen), start_index := off + last_end,
            end_index := off + (m + sepLen) } :: piecesGo true t off sepLen ms (m + sepLen) := by
        simp [piecesGo]
      rw [hunf]
      constructor
      · intro s hs
        rcases List.mem_cons.mp hs with rfl | hmem
        · refine ⟨Nat.le_refl _, by simp; omega, by simp; omega, ?_⟩
          simp only []
          rw [pySlice_length]
          omega
        · have := hih.1 s hmem
          refine ⟨by omega, this.2.1, this.2.2.1, this.2.2.2⟩
      · refine List.pairwise_cons.mpr ⟨?_, hih.2⟩
        intro s hs
        have := (hih.1 s hs).1
        simp only []
        omega
    · have hkf : keep = false := by
        cases keep
        · rfl
        · exact absurd rfl hkeep
      subst hkf
      have hunf : piecesGo false t off sepLen (m :: ms) last_end =
          { text := pySlice t last_end m, start_index := off + last_end,
            end_index := off + m } :: piecesGo false t off sepLen ms (m + sepLen) := by
        simp [piecesGo]
      rw [hunf]
      constructor
      · intro s hs
        rcases List.mem_cons.mp hs with rfl | hmem
        · refine ⟨Nat.le_refl _, by simp; omega, by simp; omega, ?_⟩
          simp only []
          rw [pySlice_length]
          omega
        · have := hih.1 s hmem
          refine ⟨by omega, this.2.1, this.2.2.1, this.2.2.2⟩
      · refine List.pairwise_cons.mpr ⟨?_, hih.2⟩
        intro s hs
        have := (hih.1 s hs).1
        simp only []
        omega

/-- Helper: with `keep_separator = True` the pieces are exactly adjacent,
running from the current scan position to the end of the text, and each piece
is the exact slice of the fragment at its (offset-relative) indices. -/
theorem piecesGo_chain (t : Text) (off sepLen : Nat) :
    ∀ ms last_end,
      (∀ m ∈ ms, last_end ≤ m ∧ m + sepLen ≤ t.length) →
      List.Pairwise (fun a b => a + sepLen ≤ b) ms →
      last_end ≤ t.length →
      Chained (off + last_end) (off + t.length) (piecesGo true t off sepLen ms last_end) ∧
      (∀ s ∈ piecesGo true t off sepLen ms last_end,
        off ≤ s.start_index ∧ s.text = pySlice t (s.start_index - off) (s.end_index - off)) := by
  intro ms
  induction ms with
  | nil =>
    intro last_end _ _ hle
    by_cases hlt : last_end < t.length
    · have hunf : piecesGo true t off sepLen [] last_end =
          [{ text := t.drop last_end, start_index := off + last_end,
             end_index := off + t.length }] := by
        simp [piecesGo, hlt]
      rw [hunf]
      refine ⟨⟨rfl, by show off + last_end ≤ off + t.length; omega, by simp [Chained]⟩, ?_⟩
      intro s hs
      simp at hs
      subst hs
      refine ⟨by show off ≤ off + last_end; omega, ?_⟩
      show t.drop last_end = pySlice t (off + last_end - off) (off + t.length - off)
      rw [Nat.add_sub_cancel_left, Nat.add_sub_cancel_left]
      exact (pySlice_of_length_le t last_end t.length (Nat.le_refl _)).symm
    · have hlen : last_end = t.length := by omega
      have hunf : piecesGo true t off sepLen [] last_end = [] := by
        simp [piecesGo, hlt]
      rw [hunf]
      subst hlen
      exact ⟨rfl, by simp⟩
  | cons m ms ih =>
    intro last_end hms hpw hle
    have hm := hms m (List.mem_cons_self _ _)
    have hih := ih (m + sepLen)
      (fun m2 hm2 => ⟨(List.pairwise_cons.mp hpw).1 m2 hm2,
        (hms m2 (List.mem_cons_of_mem _ hm2)).2⟩)
      (List.pairwise_cons.mp hpw).2 (by omega)
    have hunf : piecesGo true t off sepLen (m :: ms) last_end =
        { text := pySlice t last_end (m + sepLen), start_index := off + last_end,
          end_index := off + (m + sepLen) } :: piecesGo true t off sepLen ms (m + sepLen) := by
      simp [piecesGo]
    rw [hunf]
    constructor
    · exact ⟨rfl, by show off + last_end ≤ off + (m + sepLen); omega, hih.1⟩
    · intro s hs
      rcases List.mem_cons.mp hs with rfl | hmem
      · refine ⟨by show off ≤ off + last_end; omega, ?_⟩
        simp only []
        rw [Nat.add_sub_cancel_left, Nat.add_sub_cancel_left]
      · exact hih.2 s hmem

/-- Helper: the character-fallback segments are in-bounds, ordered, disjoint,
and carry exact lengths. -/
theorem sliceByChunkSize_bounds (k : Nat) (t : Text) (off : Nat) :
    ∀ i, (∀ s ∈ sliceByChunkSize k t off i,
        off + i ≤ s.start_index ∧ s.start_index ≤ s.end_index ∧
        s.end_index ≤ off + t.length ∧ s.end_index = s.start_index + s.text.length) ∧
      List.Pairwise (fun a b => a.end_index ≤ b.start_index) (sliceByChunkSize k t off i) := by
  intro i
  induction i using sliceByChunkSize.induct k t off with
  | case1 i hcond ih =>
    have hunf : sliceByChunkSize k t off i =
        { text := pySlice t i (i + k), start_index := off + i,
          end_index := off + i + (pySlice t i (i + k)).length } ::
        sliceByChunkSize k t off (i + k) := by
      rw [sliceByChunkSize]
      simp only [dif_pos hcond]
    rw [hunf]
    constructor
    · intro s hs
      rcases List.mem_cons.mp hs with rfl | hmem
      · refine ⟨Nat.le_refl _, by simp, ?_, by simp⟩
        simp only []
        rw [pySlice_length]
        omega
      · have := ih.1 s hmem
        refine ⟨by omega, this.2.1, this.2.2.1, this.2.2.2⟩
    · refine List.pairwise_cons.mpr ⟨?_, ih.2⟩
      intro s hs
      have h1 := (ih.1 s hs).1
      simp only []
      rw [pySlice_length]
      omega
  | case2 i hcond =>
    have hunf : sliceByChunkSize k t off i = [] := by
      rw [sliceByChunkSize]
      simp only [dif_neg hcond]
    rw [hunf]
    simp

/-- Helper: the character-fallback segments are exactly adjacent, running
from the current position to the end of the text, and are exact slices. -/
theorem sliceByChunkSize_chain (k : Nat) (t : Text) (off : Nat) (hk : 0 < k) :
    ∀ i, i ≤ t.length →
      Chained (off + i) (off + t.length) (sliceByChunkSize k t off i) ∧
      (∀ s ∈ sliceByChunkSize k t off i,
        off ≤ s.start_index ∧ s.text = pySlice t (s.start_index - off) (s.end_index - off)) := by
  intro i
  induction i using sliceByChunkSize.induct k t off with
  | case1 i hcond ih =>
    intro hle
    have hunf : sliceByChunkSize k t off i =
        { text := pySlice t i (i + k), start_index := off + i,
          end_index := off + i + (pySlice t i (i + k)).length } ::
        sliceByChunkSize k t off (i + k) := by
      rw [sliceByChunkSize]
      simp only [dif_pos hcond]
    rw [hunf]
    have hlen : (pySlice t i (i + k)).length = min (i + k) t.length - i := pySlice_length t i (i + k)
    by_cases hik : i + k ≤ t.length
    · have hend : off + i + (pySlice t i (i + k)).length = off + (i + k) := by omega
      have hih := ih (by omega)
      constructor
      · refine ⟨rfl, Nat.le_add_right _ _, ?_⟩
        rw [hend]
        exact hih.1
      · intro s hs
        rcases List.mem_cons.mp hs with rfl | hmem
        · refine ⟨by show off ≤ off + i; omega, ?_⟩
          show pySlice t i (i + k) =
            pySlice t (off + i - off) (off + i + (pySlice t i (i + k)).length - off)
          rw [Nat.add_sub_cancel_left, hend, Nat.add_sub_cancel_left]
        · exact hih.2 s hmem
    · have hend : off + i + (pySlice t i (i + k)).length = off + t.length := by omega
      have hrest : sliceByChunkSize k t off (i + k) = [] := by
        rw [sliceByChunkSize]
        rw [dif_neg]
        intro hc
        omega
      rw [hrest]
      constructor
      · refine ⟨rfl, Nat.le_add_right _ _, ?_⟩
        rw [hend]
        rfl
      · intro s hs
        simp at hs
        subst hs
        refine ⟨by show off ≤ off + i; omega, ?_⟩
        show pySlice t i (i + k) =
          pySlice t (off + i - off) (off + i + (pySlice t i (i + k)).length - off)
        rw [Nat.add_sub_cancel_left, hend, Nat.add_sub_cancel_left]
        rw [pySlice_of_length_le t i (i + k) (by omega),
          pySlice_of_length_le t i t.length (Nat.le_refl _)]
  | case2 i hcond =>
    intro hle
    have hunf : sliceByChunkSize k t off i = [] := by
      rw [sliceByChunkSize]
      simp only [dif_neg hcond]
    rw [hunf]
    have : i = t.length := by
      rcases Decidable.not_and_iff_or_not.mp hcond with h | h
      · omega
      · omega
    subst this
    exact ⟨rfl, by simp⟩

/-- Helper: the recursive re-split pass keeps every produced fragment within
the span of some input fragment, in bounds and ordered, assuming the split
pass at the same budget does. -/
theorem recurseFuel_bounds_of (c : RecursiveCharacterChunker) (fuel : Nat)
    (hsp : ∀ t seps off,
      (∀ s ∈ c.splitFuel fuel t seps off,
        off ≤ s.start_index ∧ s.start_index ≤ s.end_index ∧ s.end_index ≤ off + t.length ∧
        s.end_index = s.start_index + s.text.length) ∧
      List.Pairwise (fun a b => a.end_index ≤ b.start_index) (c.splitFuel fuel t seps off)) :
    ∀ splits seps,
      (∀ s ∈ splits, s.start_index ≤ s.end_index ∧ s.end_index = s.start_index + s.text.length) →
      List.Pairwise (fun a b => a.end_index ≤ b.start_index) splits →
      (∀ x ∈ c.recurseFuel fuel splits seps,
        (∃ s ∈ splits, s.start_index ≤ x.start_index ∧ x.end_index ≤ s.end_index) ∧
        x.start_index ≤ x.end_index ∧ x.end_index = x.start_index + x.text.length) ∧
      List.Pairwise (fun a b => a.end_index ≤ b.start_index) (c.recurseFuel fuel splits seps) := by
  intro splits
  induction splits with
  | nil =>
    intro seps _ _
    have hunf : c.recurseFuel fuel [] seps = [] := by
      rw [RecursiveCharacterChunker.recurseFuel.eq_def]
    rw [hunf]
    simp
  | cons s rest ih =>
    intro seps h1 h2
    have hunf : c.recurseFuel fuel (s :: rest) seps =
        (if c.length_function s.text ≤ c.chunk_size then [s]
         else c.splitFuel fuel s.text seps s.start_index) ++ c.recurseFuel fuel rest seps := by
      rw [RecursiveCharacterChunker.recurseFuel.eq_def]
    rw [hunf]
    have hs := h1 s (List.mem_cons_self _ _)
    have hrest := ih seps (fun x hx => h1 x (List.mem_cons_of_mem _ hx))
      (List.pairwise_cons.mp h2).2
    have hfirst : ∀ x ∈ (if c.length_function s.text ≤ c.chunk_size then [s]
        else c.splitFuel fuel s.text seps s.start_index),
        s.start_index ≤ x.start_index ∧ x.start_index ≤ x.end_index ∧
        x.end_index ≤ s.end_index ∧ x.end_index = x.start_index + x.text.length := by
      intro x hx
      by_cases hfit : c.length_function s.text ≤ c.chunk_size
      · rw [if_pos hfit] at hx
        simp at hx
        subst hx
        exact ⟨Nat.le_refl _, hs.1, Nat.le_refl _, hs.2⟩
      · rw [if_neg hfit] at hx
        obtain ⟨hb1, hb2, hb3, hb4⟩ := (hsp s.text seps s.start_index).1 x hx
        exact ⟨hb1, hb2, by omega, hb4⟩
    have hfirstpw : List.Pairwise (fun a b => a.end_index ≤ b.start_index)
        (if c.length_function s.text ≤ c.chunk_size then [s]
         else c.splitFuel fuel s.text seps s.start_index) := by
      by_cases hfit : c.length_function s.text ≤ c.chunk_size
      · rw [if_pos hfit]
        simp
      · rw [if_neg hfit]
        exact (hsp s.text seps s.start_index).2
    constructor
    · intro x hx
      rcases List.mem_append.mp hx with hx1 | hx2
      · obtain ⟨ha, hb, hc, hd⟩ := hfirst x hx1
        exact ⟨⟨s, List.mem_cons_self _ _, ha, hc⟩, hb, hd⟩
      · obtain ⟨⟨sy, hsy, hsy1, hsy2⟩, hb, hc⟩ := hrest.1 x hx2
        exact ⟨⟨sy, List.mem_cons_of_mem _ hsy, hsy1, hsy2⟩, hb, hc⟩
    · refine List.pairwise_append.mpr ⟨hfirstpw, hrest.2, ?_⟩
      intro x hx y hy
      obtain ⟨_, _, hc, _⟩ := hfirst x hx
      obtain ⟨⟨sy, hsy, hsy1, _⟩, _, _⟩ := hrest.1 y hy
      have hcross : s.end_index ≤ sy.start_index :=
        (List.pairwise_cons.mp h2).1 sy hsy
      omega

/-- Helper: every fragment the (budgeted) recursive split produces is in
bounds, ordered, disjoint, and carries exact lengths. -/
theorem splitFuel_bounds (c : RecursiveCharacterChunker) :
    ∀ fuel t seps off,
      (∀ s ∈ c.splitFuel fuel t seps off,
        off ≤ s.start_index ∧ s.start_index ≤ s.end_index ∧ s.end_index ≤ off + t.length ∧
        s.end_index = s.start_index + s.text.length) ∧
      List.Pairwise (fun a b => a.end_index ≤ b.start_index) (c.splitFuel fuel t seps off) := by
  intro fuel
  induction fuel with
  | zero =>
    intro t seps off
    have hunf : c.splitFuel 0 t seps off = [] := by
      rw [RecursiveCharacterChunker.splitFuel.eq_def]
    rw [hunf]
    simp
  | succ fuel ih =>
    intro t seps off
    rw [RecursiveCharacterChunker.splitFuel.eq_def]
    dsimp only
    by_cases ht : t = []
    · simp [ht]
    · simp only [if_neg ht]
      rcases seps with _ | ⟨sep, rem⟩
      · simp
      · by_cases hsep : sep = []
        · simp only [if_pos hsep]
          have hb := sliceByChunkSize_bounds c.chunk_size.toNat t off 0
          refine ⟨?_, hb.2⟩
          intro s hs
          have := hb.1 s hs
          exact ⟨by omega, this.2.1, this.2.2.1, this.2.2.2⟩
        · simp only [if_neg hsep]
          have hms := findLiteralFrom_spec sep t 0
          have hpieces := piecesGo_bounds c.keep_separator t off sep.length
            (findLiteralFrom sep t 0) 0
            (fun m hm => ⟨Nat.zero_le _, (hms.1 m hm).2⟩) hms.2 (Nat.zero_le _)
          have hrec := recurseFuel_bounds_of c fuel ih
            (piecesGo c.keep_separator t off sep.length (findLiteralFrom sep t 0) 0)
            (if rem = [] then [[]] else rem)
            (fun s hsx => ⟨(hpieces.1 s hsx).2.1, (hpieces.1 s hsx).2.2.2⟩) hpieces.2
          refine ⟨?_, hrec.2⟩
          intro x hx
          obtain ⟨⟨s, hsm, hs1, hs2⟩, hb, hcx⟩ := hrec.1 x hx
          have hsb := hpieces.1 s hsm
          exact ⟨by omega, hb, by omega, hcx⟩

/-- Helper: fragment-relative slice fidelity lifts to the original text. -/
theorem lift_fidelity (orig t : Text) (off : Nat)
    (hT : t = pySlice orig off (off + t.length)) (hlen : off + t.length ≤ orig.length)
    (s : Split) (hoff : off ≤ s.start_index) (hend : s.end_index ≤ off + t.length)
    (hse : s.start_index ≤ s.end_index)
    (hfid : s.text = pySlice t (s.start_index - off) (s.end_index - off)) :
    s.text = pySlice orig s.start_index s.end_index := by
  rw [hfid]
  conv_lhs => rw [hT]
  rw [pySlice_pySlice orig off (off + t.length) _ _ hlen (by omega) (by omega)]
  congr 1 <;> omega

/-- Helper: the recursive re-split pass preserves chaining and exact-slice
fidelity, assuming the split pass at the same budget does. -/
theorem recurseFuel_chain_of (c : RecursiveCharacterChunker) (orig : Text) (fuel : Nat)
    (hsp : ∀ t seps off, sepsMeasure seps < fuel → seps ≠ [] →
      t = pySlice orig off (off + t.length) → off + t.length ≤ orig.length →
      Chained off (off + t.length) (c.splitFuel fuel t seps off) ∧
      (∀ s ∈ c.splitFuel fuel t seps off, s.text = pySlice orig s.start_index s.end_index)) :
    ∀ splits seps lo hi, sepsMeasure seps < fuel → seps ≠ [] →
      Chained lo hi splits →
      (∀ s ∈ splits, s.text = pySlice orig s.start_index s.end_index ∧
        s.end_index = s.start_index + s.text.length) →
      hi ≤ orig.length →
      Chained lo hi (c.recurseFuel fuel splits seps) ∧
      (∀ x ∈ c.recurseFuel fuel splits seps, x.text = pySlice orig x.start_index x.end_index) := by
  intro splits
  induction splits with
  | nil =>
    intro seps lo hi _ _ hch _ _
    have hunf : c.recurseFuel fuel [] seps = [] := by
      rw [RecursiveCharacterChunker.recurseFuel.eq_def]
    rw [hunf]
    exact ⟨hch, by simp⟩
  | cons s rest ih =>
    intro seps lo hi hm hne hch hfid hhi
    have hunf : c.recurseFuel fuel (s :: rest) seps =
        (if c.length_function s.text ≤ c.chunk_size then [s]
         else c.splitFuel fuel s.text seps s.start_index) ++ c.recurseFuel fuel rest seps := by
      rw [RecursiveCharacterChunker.recurseFuel.eq_def]
    rw [hunf]
    obtain ⟨hstart, hle, hrest⟩ := hch
    subst hstart
    have hsfid := hfid s (List.mem_cons_self _ _)
    have hsend : s.end_index ≤ hi := (Chained.le hrest)
    have hihr := ih seps s.end_index hi hm hne hrest
      (fun x hx => hfid x (List.mem_cons_of_mem _ hx)) hhi
    have hfirst : Chained s.start_index s.end_index
        (if c.length_function s.text ≤ c.chunk_size then [s]
         else c.splitFuel fuel s.text seps s.start_index) ∧
        (∀ x ∈ (if c.length_function s.text ≤ c.chunk_size then [s]
          else c.splitFuel fuel s.text seps s.start_index),
          x.text = pySlice orig x.start_index x.end_index) := by
      by_cases hfit : c.length_function s.text ≤ c.chunk_size
      · rw [if_pos hfit]
        refine ⟨⟨rfl, hle, by simp [Chained]⟩, ?_⟩
        intro x hx
        simp at hx
        subst hx
        exact hsfid.1
      · rw [if_neg hfit]
        have hT : s.text = pySlice orig s.start_index (s.start_index + s.text.length) := by
          rw [← hsfid.2]
          exact hsfid.1
        have hsub := hsp s.text seps s.start_index hm hne hT (by omega)
        rw [← hsfid.2] at hsub
        exact ⟨hsub.1, hsub.2⟩
    exact ⟨Chained.append hfirst.1 hihr.1, by
      intro x hx
      rcases List.mem_append.mp hx with hx1 | hx2
      · exact hfirst.2 x hx1
      · exact hihr.2 x hx2⟩

/-- Helper: with `keep_separator = True` and a positive size limit, the
(budgeted) recursive split of an exact fragment produces exactly adjacent
fragments spanning the fragment, each the exact slice of the original text at
its indices. -/
theorem splitFuel_chain (c : RecursiveCharacterChunker) (orig : Text)
    (hkeep : c.keep_separator = true) (hk : 0 < c.chunk_size) :
    ∀ fuel t seps off, sepsMeasure seps < fuel → seps ≠ [] →
      t = pySlice orig off (off + t.length) → off + t.length ≤ orig.length →
      Chained off (off + t.length) (c.splitFuel fuel t seps off) ∧
      (∀ s ∈ c.splitFuel fuel t seps off, s.text = pySlice orig s.start_index s.end_index) := by
  intro fuel
  induction fuel with
  | zero =>
    intro t seps off hm
    exact absurd hm (Nat.not_lt_zero _)
  | succ fuel ih =>
    intro t seps off hm hne hT hlen
    rw [RecursiveCharacterChunker.splitFuel.eq_def]
    dsimp only
    by_cases ht : t = []
    · subst ht
      simp [Chained]
    · simp only [if_neg ht]
      rcases seps with _ | ⟨sep, rem⟩
      · exact absurd rfl hne
      · by_cases hsep : sep = []
        · simp only [if_pos hsep]
          have hk2 : 0 < c.chunk_size.toNat := by omega
          have hch := sliceByChunkSize_chain c.chunk_size.toNat t off hk2 0 (Nat.zero_le _)
          have hbd := sliceByChunkSize_bounds c.chunk_size.toNat t off 0
          rw [Nat.add_zero] at hch
          refine ⟨hch.1, ?_⟩
          intro s hs
          exact lift_fidelity orig t off hT hlen s (hch.2 s hs).1 ((hbd.1 s hs).2.2.1)
            ((hbd.1 s hs).2.1) ((hch.2 s hs).2)
        · simp only [if_neg hsep]
          rw [hkeep]
          have hms := findLiteralFrom_spec sep t 0
          have hpchain := piecesGo_chain t off sep.length (findLiteralFrom sep t 0) 0
            (fun m hmm => ⟨Nat.zero_le _, (hms.1 m hmm).2⟩) hms.2 (Nat.zero_le _)
          have hpbounds := piecesGo_bounds true t off sep.length (findLiteralFrom sep t 0) 0
            (fun m hmm => ⟨Nat.zero_le _, (hms.1 m hmm).2⟩) hms.2 (Nat.zero_le _)
          rw [Nat.add_zero] at hpchain
          have hmnext : sepsMeasure (if rem = [] then [[]] else rem) < fuel := by
            have := sepsMeasure_next_lt rem hsep
            omega
          have hnenext : (if rem = [] then [[]] else rem) ≠ [] := by
            by_cases hr : rem = []
            · rw [if_pos hr]
              simp
            · rw [if_neg hr]
              exact hr
          have hrec := recurseFuel_chain_of c orig fuel ih
            (piecesGo true t off sep.length (findLiteralFrom sep t 0) 0)
            (if rem = [] then [[]] else rem) off (off + t.length) hmnext hnenext
            hpchain.1
            (fun s hsx => ⟨lift_fidelity orig t off hT hlen s (hpchain.2 s hsx).1
                ((hpbounds.1 s hsx).2.2.1) ((hpbounds.1 s hsx).2.1) ((hpchain.2 s hsx).2),
              (hpbounds.1 s hsx).2.2.2⟩)
            hlen
          exact hrec

/-- Helper: bounds, order and exact lengths for the actual recursive split. -/
theorem splitTextWithIndices_bounds (c : RecursiveCharacterChunker) (t : Text)
    (seps : List Text) (off : Nat) :
    (∀ s ∈ c.splitTextWithIndices t seps off,
      off ≤ s.start_index ∧ s.start_index ≤ s.end_index ∧ s.end_index ≤ off + t.length ∧
      s.end_index = s.start_index + s.text.length) ∧
    List.Pairwise (fun a b => a.end_index ≤ b.start_index) (c.splitTextWithIndices t seps off) := by
  have heq := (splitFuel_eq c (sepsMeasure seps + 1)).1 t seps off (by omega)
  rw [← heq]
  exact splitFuel_bounds c (sepsMeasure seps + 1) t seps off

/-- Helper: chaining and exact-slice fidelity for the actual recursive split. -/
theorem splitTextWithIndices_chain (c : RecursiveCharacterChunker) (orig : Text)
    (hkeep : c.keep_separator = true) (hk : 0 < c.chunk_size) (t : Text) (seps : List Text)
    (off : Nat) (hne : seps ≠ []) (hT : t = pySlice orig off (off + t.length))
    (hlen : off + t.length ≤ orig.length) :
    Chained off (off + t.length) (c.splitTextWithIndices t seps off) ∧
    (∀ s ∈ c.splitTextWithIndices t seps off, s.text = pySlice orig s.start_index s.end_index) := by
  have heq := (splitFuel_eq c (sepsMeasure seps + 1)).1 t seps off (by omega)
  rw [← heq]
  exact splitFuel_chain c orig hkeep hk (sepsMeasure seps + 1) t seps off (by omega) hne hT hlen

/-- Helper: the first element of an ordered disjoint list starts no later
than any member. -/
theorem head_start_min (c0 : Split) (cs : List Split)
    (hpw : List.Pairwise (fun a b => a.end_index ≤ b.start_index) (c0 :: cs))
    (hse : ∀ s ∈ c0 :: cs, s.start_index ≤ s.end_index) :
    ∀ s ∈ c0 :: cs, c0.start_index ≤ s.start_index := by
  intro s hs
  rcases List.mem_cons.mp hs with rfl | hmem
  · exact Nat.le_refl _
  · have h1 := (List.pairwise_cons.mp hpw).1 s hmem
    have h2 := hse c0 (List.mem_cons_self _ _)
    omega

/-- Helper: the last element of an ordered disjoint list ends no earlier
than any member. -/
theorem last_end_max : ∀ (l : List Split)
    (hpw : List.Pairwise (fun a b => a.end_index ≤ b.start_index) l)
    (hse : ∀ s ∈ l, s.start_index ≤ s.end_index) (hne : l ≠ []),
    ∀ s ∈ l, s.end_index ≤ (l.getLast hne).end_index := by
  intro l
  induction l with
  | nil => intro _ _ hne; exact absurd rfl hne
  | cons c0 cs ih =>
    intro hpw hse hne s hs
    cases cs with
    | nil =>
      simp at hs
      subst hs
      simp [List.getLast]
    | cons c1 cs1 =>
      have hlast : (c0 :: c1 :: cs1).getLast hne = (c1 :: cs1).getLast (List.cons_ne_nil _ _) := by
        simp [List.getLast]
      rw [hlast]
      rcases List.mem_cons.mp hs with rfl | hmem
      · have h1 := (List.pairwise_cons.mp hpw).1 c1 (List.mem_cons_self _ _)
        have h2 := ih (List.pairwise_cons.mp hpw).2
          (fun x hx => hse x (List.mem_cons_of_mem _ hx)) (List.cons_ne_nil _ _) c1
          (List.mem_cons_self _ _)
        have h3 := hse c1 (List.mem_cons_of_mem _ (List.mem_cons_self _ _))
        omega
      · exact ih (List.pairwise_cons.mp hpw).2
          (fun x hx => hse x (List.mem_cons_of_mem _ hx)) (List.cons_ne_nil _ _) s hmem

/-- Helper: the emitted accumulation chunk spans exactly from the first part
start to the last part end, and covers every part. -/
theorem flushParts_spec (cur : List Split)
    (hpw : List.Pairwise (fun a b => a.end_index ≤ b.start_index) cur)
    (hse : ∀ s ∈ cur, s.start_index ≤ s.end_index) :
    ∀ d ∈ flushParts cur,
      (∃ s0, cur.head? = some s0 ∧ d.2.1 = s0.start_index) ∧
      (∀ s ∈ cur, d.2.1 ≤ s.start_index ∧ s.end_index ≤ d.2.2) ∧
      d.1 = joinSplits cur ∧ d.2.1 ≤ d.2.2 ∧ (∃ sl ∈ cur, d.2.2 = sl.end_index) := by
  intro d hd
  cases cur with
  | nil => simp [flushParts] at hd
  | cons c0 cs =>
    simp only [flushParts, List.mem_singleton] at hd
    subst hd
    have hlastmem : (c0 :: cs).getLast (List.cons_ne_nil c0 cs) ∈ c0 :: cs :=
      List.getLast_mem _
    refine ⟨⟨c0, rfl, rfl⟩, ?_, rfl, ?_, ?_⟩
    · intro s hs
      exact ⟨head_start_min c0 cs hpw hse s hs,
        last_end_max (c0 :: cs) hpw hse (List.cons_ne_nil c0 cs) s hs⟩
    · have h1 := head_start_min c0 cs hpw hse _ hlastmem
      have h2 := hse _ hlastmem
      show c0.start_index ≤ ((c0 :: cs).getLast (List.cons_ne_nil c0 cs)).end_index
      omega
    · exact ⟨_, hlastmem, rfl⟩

/-- Helper: the merge phase produces chunks whose offsets are in bounds,
ordered by start, and anchored at input fragment starts. -/
theorem mergeGo_bounds (f : SizeFn) (size ov : Int) (lo hi : Nat) :
    ∀ splits cur curLen,
      (∀ s ∈ cur ++ splits, lo ≤ s.start_index ∧ s.start_index ≤ s.end_index ∧
        s.end_index ≤ hi) →
      List.Pairwise (fun a b => a.end_index ≤ b.start_index) (cur ++ splits) →
      (∀ d ∈ mergeGo f size ov splits cur curLen,
        lo ≤ d.2.1 ∧ d.2.1 ≤ d.2.2 ∧ d.2.2 ≤ hi ∧
        (∃ s ∈ cur ++ splits, d.2.1 = s.start_index)) ∧
      List.Pairwise (fun x y => x.2.1 ≤ y.2.1) (mergeGo f size ov splits cur curLen) := by
  intro splits
  induction splits with
  | nil =>
    intro cur curLen hb hpw
    rw [List.append_nil] at hb hpw
    have hflush := flushParts_spec cur hpw (fun s hs => (hb s hs).2.1)
    constructor
    · intro d hd
      obtain ⟨⟨s0, hs0, hds⟩, hcov, _, hdse, ⟨sl, hsl, hdsl⟩⟩ := hflush d hd
      have hs0mem : s0 ∈ cur := by
        cases cur
        · simp at hs0
        · simp at hs0
          subst hs0
          exact List.mem_cons_self _ _
      refine ⟨?_, hdse, ?_, ⟨s0, by simpa using hs0mem, hds⟩⟩
      · have := (hb s0 hs0mem).1
        omega
      · rw [hdsl]
        exact (hb sl hsl).2.2
    · cases cur with
      | nil => simp [mergeGo, flushParts]
      | cons c0 cs => simp [mergeGo, flushParts]
  | cons s rest ih =>
    intro cur curLen hb hpw
    rw [mergeGo]
    by_cases hcond : curLen + f s.text > size ∧ cur ≠ []
    · rw [if_pos hcond]
      have hsuffix := takeOverlapRev_suffix f ov cur
      have hsub : List.Sublist (((takeOverlapRev f ov cur.reverse [] 0).1 ++ [s]) ++ rest)
          (cur ++ s :: rest) := by
        rw [List.append_assoc, List.singleton_append]
        exact List.Sublist.append hsuffix.sublist (List.Sublist.refl _)
      have hbx : ∀ x ∈ ((takeOverlapRev f ov cur.reverse [] 0).1 ++ [s]) ++ rest,
          lo ≤ x.start_index ∧ x.start_index ≤ x.end_index ∧ x.end_index ≤ hi :=
        fun x hx => hb x (hsub.mem hx)
      have hpwx := hpw.sublist hsub
      have hih := ih ((takeOverlapRev f ov cur.reverse [] 0).1 ++ [s])
        (((takeOverlapRev f ov cur.reverse [] 0).2) + f s.text) hbx hpwx
      have hcurb : ∀ x ∈ cur, lo ≤ x.start_index ∧ x.start_index ≤ x.end_index ∧
          x.end_index ≤ hi :=
        fun x hx => hb x (List.mem_append_left _ hx)
      have hcurpw : List.Pairwise (fun a b => a.end_index ≤ b.start_index) cur :=
        hpw.sublist (List.sublist_append_left _ _)
      have hflush := flushParts_spec cur hcurpw (fun x hx => (hcurb x hx).2.1)
      constructor
      · intro d hd
        rcases List.mem_append.mp hd with hd1 | hd2
        · obtain ⟨⟨s0, hs0, hds⟩, _, _, hdse, ⟨sl, hsl, hdsl⟩⟩ := hflush d hd1
          have hs0mem : s0 ∈ cur := by
            cases cur
            · simp at hs0
            · simp at hs0
              subst hs0
              exact List.mem_cons_self _ _
          refine ⟨?_, hdse, ?_, ⟨s0, List.mem_append_left _ hs0mem, hds⟩⟩
          · have := (hcurb s0 hs0mem).1
            omega
          · rw [hdsl]
            exact (hcurb sl hsl).2.2
        · obtain ⟨h1, h2, h3, ⟨sy, hsy, hdsy⟩⟩ := hih.1 d hd2
          exact ⟨h1, h2, h3, ⟨sy, hsub.mem hsy, hdsy⟩⟩
      · refine List.pairwise_append.mpr ⟨?_, hih.2, ?_⟩
        · cases cur with
          | nil => simp [flushParts]
          | cons c0 cs => simp [flushParts]
        · intro x hx y hy
          obtain ⟨⟨s0, hs0, hxs⟩, _, _, _, _⟩ := hflush x hx
          obtain ⟨_, _, _, ⟨sy, hsy, hysy⟩⟩ := hih.1 y hy
          have hs0mem : cur ++ s :: rest ≠ [] := by
            cases cur <;> simp
          have hhead : (cur ++ s :: rest).head? = some s0 := by
            cases cur
            · simp at hs0
            · simp at hs0 ⊢
              exact hs0
          obtain ⟨c0, cs, hcc⟩ : ∃ c0 cs, cur ++ s :: rest = c0 :: cs := by
            cases hc : cur ++ s :: rest
            · exact absurd hc hs0mem
            · exact ⟨_, _, rfl⟩
          have hc0 : c0 = s0 := by
            rw [hcc] at hhead
            simpa using hhead
          have hsymem : sy ∈ c0 :: cs := by
            rw [← hcc]
            exact hsub.mem hsy
          have hmin := head_start_min c0 cs (by rw [← hcc]; exact hpw)
            (by rw [← hcc]; exact fun z hz => (hb z hz).2.1) sy hsymem
          rw [hxs, hysy, ← hc0]
          exact hmin
    · rw [if_neg hcond]
      have hassoc : cur ++ s :: rest = (cur ++ [s]) ++ rest := by
        rw [List.append_assoc, List.singleton_append]
      rw [hassoc] at hb hpw
      have hih := ih (cur ++ [s]) (curLen + f s.text) hb hpw
      refine ⟨?_, hih.2⟩
      intro d hd
      obtain ⟨h1, h2, h3, ⟨sy, hsy, hdsy⟩⟩ := hih.1 d hd
      exact ⟨h1, h2, h3, ⟨sy, by rw [hassoc]; exact hsy, hdsy⟩⟩

/-- Helper: a chained list is ordered and disjoint. -/
theorem Chained.pairwise : ∀ {l : List Split} {a b : Nat}, Chained a b l →
    List.Pairwise (fun x y => x.end_index ≤ y.start_index) l := by
  intro l
  induction l with
  | nil => intro a b _; simp
  | cons s ss ih =>
    intro a b h
    obtain ⟨hs, hle, hrest⟩ := h
    refine List.pairwise_cons.mpr ⟨?_, ih hrest⟩
    intro y hy
    exact (Chained.bounds hrest y hy).1

/-- Helper: the merge phase over chained exact-slice fragments produces
chunks that are exact slices and that jointly cover every input fragment. -/
theorem mergeGo_chain (f : SizeFn) (size ov : Int) (orig : Text) :
    ∀ splits cur curLen a b hi,
      Chained a b cur → Chained b hi splits →
      (∀ s ∈ cur ++ splits, s.text = pySlice orig s.start_index s.end_index) →
      (∀ d ∈ mergeGo f size ov splits cur curLen, d.1 = pySlice orig d.2.1 d.2.2) ∧
      (∀ s ∈ cur ++ splits, ∃ d ∈ mergeGo f size ov splits cur curLen,
        d.2.1 ≤ s.start_index ∧ s.end_index ≤ d.2.2) := by
  intro splits
  induction splits with
  | nil =>
    intro cur curLen a b hi hcur _ hfid
    rw [List.append_nil] at hfid
    cases cur with
    | nil =>
      constructor
      · intro d hd
        simp [mergeGo, flushParts] at hd
      · intro s hs
        simp at hs
    | cons c0 cs =>
      have hd : mergeGo f size ov [] (c0 :: cs) curLen =
          [(joinSplits (c0 :: cs), c0.start_index,
            ((c0 :: cs).getLast (List.cons_ne_nil c0 cs)).end_index)] := by
        simp [mergeGo, flushParts]
      rw [hd]
      have hstart : c0.start_index = a := hcur.1
      have hlastend : ((c0 :: cs).getLast (List.cons_ne_nil c0 cs)).end_index = b :=
        Chained.getLast? hcur _ (List.getLast?_eq_getLast _ _)
      constructor
      · intro d hdm
        simp at hdm
        subst hdm
        show joinSplits (c0 :: cs) = pySlice orig c0.start_index _
        rw [hstart, hlastend]
        exact joinSplits_chained orig (c0 :: cs) a b hcur hfid
      · intro s hs
        rw [List.append_nil] at hs
        refine ⟨_, List.mem_singleton_self _, ?_⟩
        have := Chained.bounds hcur s hs
        show c0.start_index ≤ s.start_index ∧
          s.end_index ≤ ((c0 :: cs).getLast (List.cons_ne_nil c0 cs)).end_index
        rw [hstart, hlastend]
        omega
  | cons s rest ih =>
    intro cur curLen a b hi hcur hsplits hfid
    obtain ⟨hsb, hble, hrestch⟩ := hsplits
    rw [mergeGo]
    by_cases hcond : curLen + f s.text > size ∧ cur ≠ []
    · rw [if_pos hcond]
      have hsuffix := takeOverlapRev_suffix f ov cur
      obtain ⟨pre, hpre⟩ := hsuffix
      have hcur2 : Chained a b (pre ++ (takeOverlapRev f ov cur.reverse [] 0).1) := by
        rw [hpre]
        exact hcur
      obtain ⟨m, hovch⟩ := Chained.suffix hcur2
      have hcurch' : Chained m s.end_index ((takeOverlapRev f ov cur.reverse [] 0).1 ++ [s]) :=
        Chained.append hovch ⟨hsb, hble, rfl⟩
      have hmemsub : ∀ x ∈ ((takeOverlapRev f ov cur.reverse [] 0).1 ++ [s]) ++ rest,
          x ∈ cur ++ s :: rest := by
        intro x hx
        rcases List.mem_append.mp hx with hx1 | hx2
        · rcases List.mem_append.mp hx1 with hx3 | hx4
          · refine List.mem_append_left _ ?_
            rw [← hpre]
            exact List.mem_append_right _ hx3
          · simp at hx4
            subst hx4
            exact List.mem_append_right _ (List.mem_cons_self _ _)
        · exact List.mem_append_right _ (List.mem_cons_of_mem _ hx2)
      have hih := ih ((takeOverlapRev f ov cur.reverse [] 0).1 ++ [s])
        ((takeOverlapRev f ov cur.reverse [] 0).2 + f s.text) m s.end_index hi
        hcurch' hrestch (fun x hx => hfid x (hmemsub x hx))
      obtain ⟨c0, cs, hcc⟩ : ∃ c0 cs, cur = c0 :: cs := by
        cases hc : cur
        · exact absurd hc hcond.2
        · exact ⟨_, _, rfl⟩
      subst hcc
      have hflush : flushParts (c0 :: cs) =
          [(joinSplits (c0 :: cs), c0.start_index,
            ((c0 :: cs).getLast (List.cons_ne_nil c0 cs)).end_index)] := by
        simp [flushParts]
      rw [hflush]
      have hstart : c0.start_index = a := hcur.1
      have hlastend : ((c0 :: cs).getLast (List.cons_ne_nil c0 cs)).end_index = b :=
        Chained.getLast? hcur _ (List.getLast?_eq_getLast _ _)
      constructor
      · intro d hd
        rcases List.mem_cons.mp hd with rfl | hd2
        · show joinSplits (c0 :: cs) = pySlice orig c0.start_index _
          rw [hstart, hlastend]
          exact joinSplits_chained orig (c0 :: cs) a b hcur
            (fun x hx => hfid x (List.mem_append_left _ hx))
        · exact hih.1 d hd2
      · intro x hx
        rcases List.mem_append.mp hx with hx1 | hx2
        · refine ⟨_, List.mem_cons_self _ _, ?_⟩
          have := Chained.bounds hcur x hx1
          show c0.start_index ≤ x.start_index ∧
            x.end_index ≤ ((c0 :: cs).getLast (List.cons_ne_nil c0 cs)).end_index
          rw [hstart, hlastend]
          omega
        · have hxmem : x ∈ ((takeOverlapRev f ov (c0 :: cs).reverse [] 0).1 ++ [s]) ++ rest := by
            rcases List.mem_cons.mp hx2 with rfl | hx3
            · exact List.mem_append_left _ (List.mem_append_right _ (List.mem_singleton_self _))
            · exact List.mem_append_right _ hx3
          obtain ⟨d, hd, hcov⟩ := hih.2 x hxmem
          exact ⟨d, List.mem_cons_of_mem _ hd, hcov⟩
    · rw [if_neg hcond]
      have hcurch' : Chained a s.end_index (cur ++ [s]) :=
        Chained.append hcur ⟨hsb, hble, rfl⟩
      have hassoc : cur ++ s :: rest = (cur ++ [s]) ++ rest := by
        rw [List.append_assoc, List.singleton_append]
      rw [hassoc] at hfid
      have hih := ih (cur ++ [s]) (curLen + f s.text) a s.end_index hi hcurch' hrestch hfid
      refine ⟨hih.1, ?_⟩
      intro x hx
      rw [hassoc] at hx
      exact hih.2 x hx

/-- Helper: chunk-level bounds, order and measured sizes for
`RecursiveCharacterChunker.chunk`, for every configuration. -/
theorem recursiveChunk_bounds (c : RecursiveCharacterChunker) (t : Text) :
    (∀ ck ∈ c.chunk t, ck.start_char_index ≤ ck.end_char_index ∧
      ck.end_char_index ≤ t.length ∧
      ck.token_count = c.length_function ck.text_for_generation) ∧
    List.Pairwise (fun x y => x.start_char_index ≤ y.start_char_index) (c.chunk t) := by
  by_cases ht : t = []
  · simp [RecursiveCharacterChunker.chunk, ht]
  · have hunf : c.chunk t = enumMap (fun i d =>
        { text_for_generation := d.1
          chunk_id := i
          start_char_index := d.2.1
          end_char_index := d.2.2
          sequence_number := i
          token_count := c.length_function d.1
          chunking_strategy_used := "recursive_character" }) 0
        (mergeGo c.length_function c.chunk_size c.chunk_overlap
          (c.splitTextWithIndices t c.separators 0) [] 0) := by
      rw [RecursiveCharacterChunker.chunk]
      simp only [if_neg ht, RecursiveCharacterChunker.mergeSplitsWithIndices]
    have hsplits := splitTextWithIndices_bounds c t c.separators 0
    have hmerge := mergeGo_bounds c.length_function c.chunk_size c.chunk_overlap 0 t.length
      (c.splitTextWithIndices t c.separators 0) [] 0
      (by
        intro s hs
        simp at hs
        have := hsplits.1 s hs
        exact ⟨Nat.zero_le _, this.2.1, by omega⟩)
      (by simpa using hsplits.2)
    rw [hunf]
    constructor
    · refine enumMap_forall _ 0 _ ?_
      intro j d hd
      have := hmerge.1 d (by simpa using hd)
      exact ⟨this.2.1, this.2.2.1, rfl⟩
    · exact enumMap_pairwise
        (S := fun (x y : Chunk) => x.start_char_index ≤ y.start_char_index)
        (fun i d =>
          { text_for_generation := d.1
            chunk_id := i
            start_char_index := d.2.1
            end_char_index := d.2.2
            sequence_number := i
            token_count := c.length_function d.1
            chunking_strategy_used := "recursive_character" })
        (fun j k x y hxy => hxy) 0 _ hmerge.2

/-- Helper: chunk-level exact-slice fidelity and full positional coverage for
`RecursiveCharacterChunker.chunk` with `keep_separator = True` and a valid
size limit (`separators` is non-empty for every constructed chunker, since
`__init__` stores `separators or [default list]`). -/
theorem recursiveChunk_chain (c : RecursiveCharacterChunker)
    (hkeep : c.keep_separator = true) (hk : 0 < c.chunk_size)
    (hsep : c.separators ≠ []) (t : Text) :
    (∀ ck ∈ c.chunk t, ck.text_for_generation =
      pySlice t ck.start_char_index ck.end_char_index) ∧
    (∀ p, p < t.length → ∃ ck ∈ c.chunk t,
      ck.start_char_index ≤ p ∧ p < ck.end_char_index) := by
  by_cases ht : t = []
  · subst ht
    constructor
    · intro ck hck
      simp [RecursiveCharacterChunker.chunk] at hck
    · intro p hp
      simp at hp
  · have hunf : c.chunk t = enumMap (fun i d =>
        { text_for_generation := d.1
          chunk_id := i
          start_char_index := d.2.1
          end_char_index := d.2.2
          sequence_number := i
          token_count := c.length_function d.1
          chunking_strategy_used := "recursive_character" }) 0
        (mergeGo c.length_function c.chunk_size c.chunk_overlap
          (c.splitTextWithIndices t c.separators 0) [] 0) := by
      rw [RecursiveCharacterChunker.chunk]
      simp only [if_neg ht, RecursiveCharacterChunker.mergeSplitsWithIndices]
    have hT : t = pySlice t 0 (0 + t.length) := by
      rw [Nat.zero_add, pySlice_zero_length]
    have hchain := splitTextWithIndices_chain c t hkeep hk t c.separators 0 hsep hT
      (by omega)
    have hch0 : Chained 0 t.length (c.splitTextWithIndices t c.separators 0) := by
      have := hchain.1
      rwa [Nat.zero_add] at this
    have hmc := mergeGo_chain c.length_function c.chunk_size c.chunk_overlap t
      (c.splitTextWithIndices t c.separators 0) [] 0 0 0 t.length
      (by simp [Chained]) hch0 (by simpa using hchain.2)
    rw [hunf]
    constructor
    · refine enumMap_forall _ 0 _ ?_
      intro j d hd
      exact hmc.1 d hd
    · intro p hp
      obtain ⟨s, hsm, hs1, hs2⟩ := Chained.coverage hch0 p (Nat.zero_le _) hp
      obtain ⟨d, hd, hd1, hd2⟩ := hmc.2 s (by simpa using hsm)
      obtain ⟨j, hj⟩ := enumMap_exists (fun i d =>
        { text_for_generation := d.1
          chunk_id := i
          start_char_index := d.2.1
          end_char_index := d.2.2
          sequence_number := i
          token_count := c.length_function d.1
          chunking_strategy_used := "recursive_character" } : Nat → Text × Nat × Nat → Chunk) 0 _ d hd
      refine ⟨_, hj, ?_, ?_⟩
      · show d.2.1 ≤ p
        omega
      · show p < d.2.2
        omega

/-- Helper: the not-yet-left-stripped tail decomposes as stripped core plus
trailing whitespace. -/
theorem dropWhile_eq_strip_append (s : Text) :
    s.dropWhile isPySpace = pyStrip s ++
      ((s.dropWhile isPySpace).reverse.takeWhile isPySpace).reverse := by
  conv_lhs => rw [← List.reverse_reverse (s.dropWhile isPySpace)]
  conv_lhs =>
    rw [← List.takeWhile_append_dropWhile (p := isPySpace)
      (l := (s.dropWhile isPySpace).reverse)]
  rw [List.reverse_append]
  rfl

/-- Helper: decomposition of a string around its stripped core: leading
whitespace, the stripped text, trailing whitespace. -/
theorem pyStrip_decomp (s : Text) :
    s = s.takeWhile isPySpace ++ (pyStrip s ++
      ((s.dropWhile isPySpace).reverse.takeWhile isPySpace).reverse) ∧
    (∀ ch ∈ s.takeWhile isPySpace, isPySpace ch = true) ∧
    (∀ ch ∈ ((s.dropWhile isPySpace).reverse.takeWhile isPySpace).reverse,
      isPySpace ch = true) := by
  refine ⟨?_, fun ch hch => List.mem_takeWhile_imp hch, fun ch hch => ?_⟩
  · conv_lhs => rw [← List.takeWhile_append_dropWhile (p := isPySpace) (l := s)]
    rw [← dropWhile_eq_strip_append]
  · rw [List.mem_reverse] at hch
    exact List.mem_takeWhile_imp hch

/-- Helper: a non-empty stripped string starts with a non-whitespace
character. -/
theorem pyStrip_head (s : Text) (hne : pyStrip s ≠ []) :
    ∃ c rest, pyStrip s = c :: rest ∧ isPySpace c = false := by
  rcases hps : pyStrip s with _ | ⟨c, rest⟩
  · exact absurd hps hne
  · refine ⟨c, rest, rfl, ?_⟩
    have hdw := dropWhile_eq_strip_append s
    rw [hps] at hdw
    have hhead : (s.dropWhile isPySpace).head? = some c := by
      rw [hdw]
      simp
    have := List.head?_dropWhile_not isPySpace s
    rw [hhead] at this
    simpa using this

/-- Helper: a string that strips to empty is all whitespace. -/
theorem pyStrip_eq_nil (s : Text) (h : pyStrip s = []) : ∀ ch ∈ s, isPySpace ch = true := by
  obtain ⟨hdecomp, hlead, htrail⟩ := pyStrip_decomp s
  intro ch hch
  rw [hdecomp, h] at hch
  simp at hch
  rcases hch with h1 | h1
  · exact hlead ch h1
  · exact htrail ch (List.mem_reverse.mpr h1)

/-- Helper: characters within the leading `takeWhile` region satisfy the
predicate. -/
theorem takeWhile_getElem_prop (p : Char → Bool) : ∀ (l : Text) (j : Nat),
    j < (l.takeWhile p).length → ∀ hjl : j < l.length, p (l.get ⟨j, hjl⟩) = true := by
  intro l
  induction l with
  | nil => intro j hj; simp at hj
  | cons x xs ih =>
    intro j hj hjl
    by_cases hpx : p x
    · rw [List.takeWhile_cons_of_pos hpx] at hj
      cases j with
      | zero => simpa using hpx
      | succ j =>
        simp at hj
        exact ih j hj (by simpa using hjl)
    · rw [List.takeWhile_cons_of_neg hpx] at hj
      simp at hj

/-- Helper: `find?` over an initial range returns the least satisfying index. -/
theorem range_find?_min (p : Nat → Bool) :
    ∀ n k, k < n → p k = true → (∀ j, j < k → p j = false) →
      (List.range n).find? p = some k := by
  intro n
  induction n with
  | zero => intro k hk; omega
  | succ n ih =>
    intro k hk hp hmin
    rw [List.range_succ, List.find?_append]
    by_cases hkn : k < n
    · rw [ih k hkn hp hmin]
      rfl
    · have hkeq : k = n := by omega
      subst hkeq
      have hnone : (List.range k).find? p = none := by
        rw [List.find?_eq_none]
        intro j hj
        simp at hj
        simp [hmin j hj]
      rw [hnone]
      simp [hp]

/-- Helper: `str.find` locates the stripped core exactly after the leading
whitespace. -/
theorem pyFind_strip (raw : Text) (hne : pyStrip raw ≠ []) :
    pyFind raw (pyStrip raw) = some (raw.takeWhile isPySpace).length := by
  obtain ⟨hdecomp, hlead, _⟩ := pyStrip_decomp raw
  obtain ⟨c, rest, hps, hcns⟩ := pyStrip_head raw hne
  have hlen : (raw.takeWhile isPySpace).length ≤ raw.length :=
    List.length_le_of_sublist (List.takeWhile_sublist _)
  unfold pyFind
  apply range_find?_min
  · omega
  · have hdrop : raw.drop (raw.takeWhile isPySpace).length =
        pyStrip raw ++ ((raw.dropWhile isPySpace).reverse.takeWhile isPySpace).reverse := by
      rw [← dropWhile_eq_strip_append]
      conv_lhs =>
        enter [2]
        rw [← List.takeWhile_append_dropWhile (p := isPySpace) (l := raw)]
      exact List.drop_left _ _
    rw [hdrop]
    exact List.isPrefixOf_iff_prefix.mpr ⟨_, rfl⟩
  · intro j hj
    have hjlt : j < raw.length := by omega
    have hdropj : raw.drop j = raw.get ⟨j, hjlt⟩ :: raw.drop (j + 1) :=
      List.drop_eq_getElem_cons hjlt
    have hjws : isPySpace (raw.get ⟨j, hjlt⟩) = true :=
      takeWhile_getElem_prop isPySpace raw j hj hjlt
    rw [hdropj, hps]
    show ((c :: rest).isPrefixOf (raw.get ⟨j, hjlt⟩ :: raw.drop (j + 1))) = false
    rw [List.isPrefixOf_cons₂]
    have hcne : (c == raw.get ⟨j, hjlt⟩) = false := by
      by_cases hc : c = raw.get ⟨j, hjlt⟩
      · rw [hc] at hcns
        rw [hcns] at hjws
        simp at hjws
      · simpa using hc
    rw [hcne]
    simp

/-- Helper: leading whitespace plus stripped core fit within the string. -/
theorem strip_len_le (raw : Text) :
    (raw.takeWhile isPySpace).length + (pyStrip raw).length ≤ raw.length := by
  conv_rhs => rw [(pyStrip_decomp raw).1]
  simp

/-- Helper: a non-whitespace character lies inside the stripped core region. -/
theorem strip_region (raw : Text) (j : Nat) (hjl : j < raw.length)
    (hnw : isPySpace (raw.get ⟨j, hjl⟩) = false) :
    pyStrip raw ≠ [] ∧ (raw.takeWhile isPySpace).length ≤ j ∧
    j < (raw.takeWhile isPySpace).length + (pyStrip raw).length := by
  obtain ⟨hdecomp, hlead, htrail⟩ := pyStrip_decomp raw
  have hne : pyStrip raw ≠ [] := by
    intro hnil
    have := pyStrip_eq_nil raw hnil (raw.get ⟨j, hjl⟩) (List.get_mem _ _ _)
    rw [this] at hnw
    simp at hnw
  have hjlead : (raw.takeWhile isPySpace).length ≤ j := by
    by_contra hcon
    have := takeWhile_getElem_prop isPySpace raw j (by omega) hjl
    rw [this] at hnw
    simp at hnw
  refine ⟨hne, hjlead, ?_⟩
  by_contra hcon
  have hn : (raw.takeWhile isPySpace).length + (pyStrip raw).length ≤ j := by omega
  have hdropT : raw.drop ((raw.takeWhile isPySpace).length + (pyStrip raw).length) =
      ((raw.dropWhile isPySpace).reverse.takeWhile isPySpace).reverse := by
    conv_lhs =>
      enter [2]
      rw [hdecomp]
    rw [← List.append_assoc]
    have hl : ((raw.takeWhile isPySpace) ++ pyStrip raw).length =
        (raw.takeWhile isPySpace).length + (pyStrip raw).length := by
      simp
    rw [← hl]
    exact List.drop_left _ _
  have hjd : j - ((raw.takeWhile isPySpace).length + (pyStrip raw).length) <
      (raw.drop ((raw.takeWhile isPySpace).length + (pyStrip raw).length)).length := by
    rw [List.length_drop]
    omega
  have h1 : raw.get ⟨j, hjl⟩ =
      (raw.drop ((raw.takeWhile isPySpace).length + (pyStrip raw).length)).get
        ⟨j - ((raw.takeWhile isPySpace).length + (pyStrip raw).length), hjd⟩ := by
    rw [List.get_eq_getElem, List.get_eq_getElem, List.getElem_drop]
    congr 1
    show j = (raw.takeWhile isPySpace).length + (pyStrip raw).length +
      (j - ((raw.takeWhile isPySpace).length + (pyStrip raw).length))
    omega
  have hmem0 : raw.get ⟨j, hjl⟩ ∈
      raw.drop ((raw.takeWhile isPySpace).length + (pyStrip raw).length) := by
    rw [h1]
    exact List.get_mem _ _ _
  rw [hdropT] at hmem0
  have := htrail _ hmem0
  rw [this] at hnw
  simp at hnw

/-- Helper: one unfolding of the splitter on an exhausted match list with a
non-whitespace remainder. -/
theorem sentencesGo_nil_eq (t : Text) (last_end : Nat)
    (hstr : pyStrip (t.drop last_end) ≠ []) :
    sentencesGo t [] last_end =
      [{ text := pyStrip (t.drop last_end),
         start_index := last_end + ((t.drop last_end).takeWhile isPySpace).length,
         end_index := last_end + ((t.drop last_end).takeWhile isPySpace).length +
           (pyStrip (t.drop last_end)).length }] := by
  rw [sentencesGo]
  simp only [if_neg hstr, pyFind_strip _ hstr, Option.getD_some]

/-- Helper: one unfolding of the splitter on an exhausted match list with an
all-whitespace remainder. -/
theorem sentencesGo_nil_eq_nil (t : Text) (last_end : Nat)
    (hstr : pyStrip (t.drop last_end) = []) :
    sentencesGo t [] last_end = [] := by
  rw [sentencesGo]
  simp [hstr]

/-- Helper: one unfolding of the splitter on a match with a non-whitespace
segment before it. -/
theorem sentencesGo_cons_eq (t : Text) (m : Nat) (ms : List Nat) (last_end : Nat)
    (hstr : pyStrip (pySlice t last_end m) ≠ []) :
    sentencesGo t (m :: ms) last_end =
      { text := pyStrip (pySlice t last_end m),
        start_index := last_end + ((pySlice t last_end m).takeWhile isPySpace).length,
        end_index := last_end + ((pySlice t last_end m).takeWhile isPySpace).length +
          (pyStrip (pySlice t last_end m)).length } :: sentencesGo t ms (m + 1) := by
  rw [sentencesGo]
  simp only [if_neg hstr, pyFind_strip _ hstr, Option.getD_some]

/-- Helper: one unfolding of the splitter on a match with an all-whitespace
segment before it. -/
theorem sentencesGo_cons_eq_skip (t : Text) (m : Nat) (ms : List Nat) (last_end : Nat)
    (hstr : pyStrip (pySlice t last_end m) = []) :
    sentencesGo t (m :: ms) last_end = sentencesGo t ms (m + 1) := by
  rw [sentencesGo]
  simp [hstr]

/-- Helper: every sentence the splitter produces is in bounds, ordered and
disjoint, given in-range, increasing match positions. -/
theorem sentencesGo_spec (t : Text) : ∀ ms last_end,
    (∀ m ∈ ms, last_end ≤ m ∧ m < t.length) →
    List.Pairwise (fun a b => a < b) ms →
    last_end ≤ t.length →
    (∀ sn ∈ sentencesGo t ms last_end,
      last_end ≤ sn.start_index ∧ sn.start_index ≤ sn.end_index ∧ sn.end_index ≤ t.length) ∧
    List.Pairwise (fun a b => a.end_index ≤ b.start_index) (sentencesGo t ms last_end) := by
  intro ms
  induction ms with
  | nil =>
    intro last_end _ _ hle
    by_cases hstr : pyStrip (t.drop last_end) = []
    · rw [sentencesGo_nil_eq_nil t last_end hstr]
      simp
    · rw [sentencesGo_nil_eq t last_end hstr]
      have hsl := strip_len_le (t.drop last_end)
      rw [List.length_drop] at hsl
      constructor
      · intro sn hsn
        simp at hsn
        subst hsn
        refine ⟨by show last_end ≤ last_end + _; omega,
          by show last_end + _ ≤ last_end + _ + _; omega,
          by show last_end + _ + _ ≤ t.length; omega⟩
      · simp
  | cons m ms ih =>
    intro last_end hms hpw hle
    have hm := hms m (List.mem_cons_self _ _)
    have hih := ih (m + 1)
      (fun m2 hm2 => ⟨(List.pairwise_cons.mp hpw).1 m2 hm2,
        (hms m2 (List.mem_cons_of_mem _ hm2)).2⟩)
      (List.pairwise_cons.mp hpw).2 (by omega)
    by_cases hstr : pyStrip (pySlice t last_end m) = []
    · rw [sentencesGo_cons_eq_skip t m ms last_end hstr]
      refine ⟨?_, hih.2⟩
      intro sn hsn
      have := hih.1 sn hsn
      exact ⟨by omega, this.2.1, this.2.2⟩
    · rw [sentencesGo_cons_eq t m ms last_end hstr]
      have hsl := strip_len_le (pySlice t last_end m)
      rw [pySlice_length] at hsl
      have hminle : min m t.length = m := by omega
      rw [hminle] at hsl
      constructor
      · intro sn hsn
        rcases List.mem_cons.mp hsn with rfl | hmem
        · refine ⟨by show last_end ≤ last_end + _; omega,
            by show last_end + _ ≤ last_end + _ + _; omega,
            by show last_end + _ + _ ≤ t.length; omega⟩
        · have := hih.1 sn hmem
          exact ⟨by omega, this.2.1, this.2.2⟩
      · refine List.pairwise_cons.mpr ⟨?_, hih.2⟩
        intro sn hsn
        have h1 := (hih.1 sn hsn).1
        show last_end + _ + _ ≤ sn.start_index
        omega

/-- Helper: `getD` agrees with `get` in range. -/
theorem getD_eq_get (t : Text) (p : Nat) (hp : p < t.length) (d : Char) :
    t.getD p d = t.get ⟨p, hp⟩ := by
  rw [List.getD_eq_getElem t d hp]
  rfl

/-- Helper: every non-whitespace position from the scan point on is covered
by some produced sentence. -/
theorem sentencesGo_coverage (t : Text) : ∀ ms last_end,
    (∀ m ∈ ms, last_end ≤ m ∧ m < t.length ∧ isPySpace (t.getD m ' ') = true) →
    List.Pairwise (fun a b => a < b) ms →
    ∀ p, ∀ hp : p < t.length, last_end ≤ p → isPySpace (t.get ⟨p, hp⟩) = false →
      ∃ sn ∈ sentencesGo t ms last_end, sn.start_index ≤ p ∧ p < sn.end_index := by
  intro ms
  induction ms with
  | nil =>
    intro last_end _ _ p hp hple hnw
    have hjl : p - last_end < (t.drop last_end).length := by
      rw [List.length_drop]
      omega
    have hgd : (t.drop last_end).get ⟨p - last_end, hjl⟩ = t.get ⟨p, hp⟩ := by
      rw [List.get_eq_getElem, List.get_eq_getElem, List.getElem_drop]
      congr 1
      show last_end + (p - last_end) = p
      omega
    have hreg := strip_region (t.drop last_end) (p - last_end) hjl (by rw [hgd]; exact hnw)
    rw [sentencesGo_nil_eq t last_end hreg.1]
    refine ⟨_, List.mem_singleton_self _, ?_, ?_⟩
    · show last_end + ((t.drop last_end).takeWhile isPySpace).length ≤ p
      omega
    · show p < last_end + ((t.drop last_end).takeWhile isPySpace).length +
        (pyStrip (t.drop last_end)).length
      omega
  | cons m ms ih =>
    intro last_end hms hpw p hp hple hnw
    have hm := hms m (List.mem_cons_self _ _)
    have hihargs : ∀ m2 ∈ ms, m + 1 ≤ m2 ∧ m2 < t.length ∧
        isPySpace (t.getD m2 ' ') = true := by
      intro m2 hm2
      have h1 := (List.pairwise_cons.mp hpw).1 m2 hm2
      have h2 := hms m2 (List.mem_cons_of_mem _ hm2)
      exact ⟨by omega, h2.2.1, h2.2.2⟩
    rcases Nat.lt_trichotomy p m with hpm | hpm | hpm
    · have hmle : m ≤ t.length := Nat.le_of_lt hm.2.1
      have hjl : p - last_end < (pySlice t last_end m).length := by
        rw [pySlice_length]
        omega
      have hgd : (pySlice t last_end m).get ⟨p - last_end, hjl⟩ = t.get ⟨p, hp⟩ := by
        rw [pySlice_getElem]
        congr 1
        exact Fin.ext (show last_end + (p - last_end) = p by omega)
      have hreg := strip_region (pySlice t last_end m) (p - last_end) hjl
        (by rw [hgd]; exact hnw)
      rw [sentencesGo_cons_eq t m ms last_end hreg.1]
      refine ⟨_, List.mem_cons_self _ _, ?_, ?_⟩
      · show last_end + ((pySlice t last_end m).takeWhile isPySpace).length ≤ p
        omega
      · show p < last_end + ((pySlice t last_end m).takeWhile isPySpace).length +
          (pyStrip (pySlice t last_end m)).length
        omega
    · subst hpm
      have := hm.2.2
      rw [getD_eq_get t p hp ' '] at this
      rw [this] at hnw
      simp at hnw
    · obtain ⟨sn, hsn, hcov⟩ := ih (m + 1) hihargs (List.pairwise_cons.mp hpw).2 p hp
        (by omega) hnw
      by_cases hstr : pyStrip (pySlice t last_end m) = []
      · rw [sentencesGo_cons_eq_skip t m ms last_end hstr]
        exact ⟨sn, hsn, hcov⟩
      · rw [sentencesGo_cons_eq t m ms last_end hstr]
        exact ⟨sn, List.mem_cons_of_mem _ hsn, hcov⟩

/-- Helper: the head of an ordered disjoint sentence list starts no later
than any member. -/
theorem sent_head_start_min (c0 : Sentence) (cs : List Sentence)
    (hpw : List.Pairwise (fun a b => a.end_index ≤ b.start_index) (c0 :: cs))
    (hse : ∀ s ∈ c0 :: cs, s.start_index ≤ s.end_index) :
    ∀ s ∈ c0 :: cs, c0.start_index ≤ s.start_index := by
  intro s hs
  rcases List.mem_cons.mp hs with rfl | hmem
  · exact Nat.le_refl _
  · have h1 := (List.pairwise_cons.mp hpw).1 s hmem
    have h2 := hse c0 (List.mem_cons_self _ _)
    omega

/-- Helper: the last element of an ordered disjoint sentence list ends no
earlier than any member. -/
theorem sent_last_end_max : ∀ (l : List Sentence)
    (hpw : List.Pairwise (fun a b => a.end_index ≤ b.start_index) l)
    (hse : ∀ s ∈ l, s.start_index ≤ s.end_index) (hne : l ≠ []),
    ∀ s ∈ l, s.end_index ≤ (l.getLast hne).end_index := by
  intro l
  induction l with
  | nil => intro _ _ hne; exact absurd rfl hne
  | cons c0 cs ih =>
    intro hpw hse hne s hs
    cases cs with
    | nil =>
      simp at hs
      subst hs
      simp [List.getLast]
    | cons c1 cs1 =>
      have hlast : (c0 :: c1 :: cs1).getLast hne = (c1 :: cs1).getLast (List.cons_ne_nil _ _) := by
        simp [List.getLast]
      rw [hlast]
      rcases List.mem_cons.mp hs with rfl | hmem
      · have h1 := (List.pairwise_cons.mp hpw).1 c1 (List.mem_cons_self _ _)
        have h2 := ih (List.pairwise_cons.mp hpw).2
          (fun x hx => hse x (List.mem_cons_of_mem _ hx)) (List.cons_ne_nil _ _) c1
          (List.mem_cons_self _ _)
        have h3 := hse c1 (List.mem_cons_of_mem _ (List.mem_cons_self _ _))
        omega
      · exact ih (List.pairwise_cons.mp hpw).2
          (fun x hx => hse x (List.mem_cons_of_mem _ hx)) (List.cons_ne_nil _ _) s hmem

/-- Helper: the emitted sentence chunk spans from the first accumulated
sentence start to the last accumulated sentence end and covers every
accumulated sentence. -/
theorem flushSents_spec (cur : List Sentence)
    (hpw : List.Pairwise (fun a b => a.end_index ≤ b.start_index) cur)
    (hse : ∀ s ∈ cur, s.start_index ≤ s.end_index) :
    ∀ d ∈ flushSents cur,
      (∃ s0, cur.head? = some s0 ∧ d.2.1 = s0.start_index) ∧
      (∀ s ∈ cur, d.2.1 ≤ s.start_index ∧ s.end_index ≤ d.2.2) ∧
      d.2.1 ≤ d.2.2 ∧ (∃ sl ∈ cur, d.2.2 = sl.end_index) := by
  intro d hd
  cases cur with
  | nil => simp [flushSents] at hd
  | cons c0 cs =>
    simp only [flushSents, List.mem_singleton] at hd
    subst hd
    have hlastmem : (c0 :: cs).getLast (List.cons_ne_nil c0 cs) ∈ c0 :: cs :=
      List.getLast_mem _
    refine ⟨⟨c0, rfl, rfl⟩, ?_, ?_, ?_⟩
    · intro s hs
      exact ⟨sent_head_start_min c0 cs hpw hse s hs,
        sent_last_end_max (c0 :: cs) hpw hse (List.cons_ne_nil c0 cs) s hs⟩
    · have h1 := sent_head_start_min c0 cs hpw hse _ hlastmem
      have h2 := hse _ hlastmem
      show c0.start_index ≤ ((c0 :: cs).getLast (List.cons_ne_nil c0 cs)).end_index
      omega
    · exact ⟨_, hlastmem, rfl⟩

/-- Helper: a flushed sentence chunk starts no later than any sentence of
the whole remaining input. -/
theorem flushSents_start_le (cur rest2 : List Sentence)
    (hpw : List.Pairwise (fun a b => a.end_index ≤ b.start_index) (cur ++ rest2))
    (hse : ∀ s ∈ cur ++ rest2, s.start_index ≤ s.end_index) :
    ∀ d ∈ flushSents cur, ∀ sy ∈ cur ++ rest2, d.2.1 ≤ sy.start_index := by
  intro d hd sy hsy
  cases cur with
  | nil => simp [flushSents] at hd
  | cons c0 cs =>
    simp only [flushSents, List.mem_singleton] at hd
    subst hd
    have hrw : (c0 :: cs) ++ rest2 = c0 :: (cs ++ rest2) := rfl
    rw [hrw] at hpw hse hsy
    exact sent_head_start_min c0 (cs ++ rest2) hpw hse sy hsy

/-- Helper: the flushed sentence chunk covers every accumulated sentence. -/
theorem flushSents_covers (cur : List Sentence)
    (hpw : List.Pairwise (fun a b => a.end_index ≤ b.start_index) cur)
    (hse : ∀ s ∈ cur, s.start_index ≤ s.end_index) :
    ∀ x ∈ cur, ∃ d ∈ flushSents cur, d.2.1 ≤ x.start_index ∧ x.end_index ≤ d.2.2 := by
  intro x hx
  cases cur with
  | nil => simp at hx
  | cons c0 cs =>
    refine ⟨(joinSentences (c0 :: cs), c0.start_index,
      ((c0 :: cs).getLast (List.cons_ne_nil c0 cs)).end_index), ?_, ?_, ?_⟩
    · simp [flushSents]
    · exact sent_head_start_min c0 cs hpw hse x hx
    · exact sent_last_end_max (c0 :: cs) hpw hse (List.cons_ne_nil c0 cs) x hx

/-- Helper: the token-overlap scan returns a reversed prefix of its input
prepended to the accumulator. -/
theorem tokenOverlapRev_take (f : SizeFn) (ov : Int) :
    ∀ (l acc : List Sentence), ∃ k, tokenOverlapRev f ov l acc = (l.take k).reverse ++ acc := by
  intro l
  induction l with
  | nil => intro acc; exact ⟨0, rfl⟩
  | cons s ss ih =>
    intro acc
    simp only [tokenOverlapRev]
    by_cases hc : f (joinSentences (s :: acc)) > ov
    · rw [if_pos hc]
      exact ⟨0, rfl⟩
    · rw [if_neg hc]
      obtain ⟨k, hk⟩ := ih (s :: acc)
      refine ⟨k + 1, ?_⟩
      rw [hk]
      simp

/-- Helper: the overlap seed of the sentence merge is a suffix of the
accumulated sentences. -/
theorem sentOverlap_suffix (c : SentenceChunker) (cur : List Sentence) :
    List.IsSuffix (sentOverlap c cur) cur := by
  rw [sentOverlap]
  by_cases h : c.overlap_sentences > 0
  · rw [if_pos h]
    exact List.drop_suffix _ _
  · rw [if_neg h]
    obtain ⟨k, hk⟩ := tokenOverlapRev_take c.length_function c.chunk_overlap cur.reverse []
    rw [hk, List.append_nil]
    refine ⟨(cur.reverse.drop k).reverse, ?_⟩
    rw [← List.reverse_append, List.take_append_drop, List.reverse_reverse]

/-- Helper: unfolding equation of the sentence merge loop, cons case. -/
theorem mergeSentencesGo_cons (c : SentenceChunker) (s : Sentence)
    (rest cur : List Sentence) :
    mergeSentencesGo c (s :: rest) cur =
      if c.length_function s.text > c.chunk_size then
        flushSents cur ++ (s.text, s.start_index, s.end_index) :: mergeSentencesGo c rest []
      else if c.length_function (joinSentences (cur ++ [s])) > c.chunk_size then
        if c.length_function (joinSentences (sentOverlap c cur ++ [s])) ≤ c.chunk_size then
          flushSents cur ++ mergeSentencesGo c rest (sentOverlap c cur ++ [s])
        else
          flushSents cur ++ (s.text, s.start_index, s.end_index) :: mergeSentencesGo c rest []
      else mergeSentencesGo c rest (cur ++ [s]) := by
  rw [mergeSentencesGo]

/-- Helper: the flush-then-standalone shape of the two emitting branches of
the sentence merge keeps the bounds and start-order invariants. -/
theorem mergeSentencesGo_flush_standalone (c : SentenceChunker) (hi : Nat)
    (s : Sentence) (rest cur : List Sentence)
    (hb : ∀ x ∈ cur ++ s :: rest, x.start_index ≤ x.end_index ∧ x.end_index ≤ hi)
    (hpw : List.Pairwise (fun a b => a.end_index ≤ b.start_index) (cur ++ s :: rest))
    (hih : (∀ d ∈ mergeSentencesGo c rest [],
        d.2.1 ≤ d.2.2 ∧ d.2.2 ≤ hi ∧ ∃ x ∈ rest, d.2.1 = x.start_index) ∧
      List.Pairwise (fun x y => x.2.1 ≤ y.2.1) (mergeSentencesGo c rest [])) :
    (∀ d ∈ flushSents cur ++ (s.text, s.start_index, s.end_index) :: mergeSentencesGo c rest [],
      d.2.1 ≤ d.2.2 ∧ d.2.2 ≤ hi ∧ ∃ x ∈ cur ++ s :: rest, d.2.1 = x.start_index) ∧
    List.Pairwise (fun x y => x.2.1 ≤ y.2.1)
      (flushSents cur ++ (s.text, s.start_index, s.end_index) :: mergeSentencesGo c rest []) := by
  have hse : ∀ x ∈ cur ++ s :: rest, x.start_index ≤ x.end_index := fun x hx => (hb x hx).1
  have hcurpw : List.Pairwise (fun a b => a.end_index ≤ b.start_index) cur :=
    hpw.sublist (List.sublist_append_left _ _)
  have hcurse : ∀ x ∈ cur, x.start_index ≤ x.end_index :=
    fun x hx => hse x (List.mem_append_left _ hx)
  have hflush := flushSents_spec cur hcurpw hcurse
  have hcurb : ∀ x ∈ cur, x.start_index ≤ x.end_index ∧ x.end_index ≤ hi :=
    fun x hx => hb x (List.mem_append_left _ hx)
  have hsmem : s ∈ cur ++ s :: rest := List.mem_append_right _ (List.mem_cons_self _ _)
  have hsb := hb s hsmem
  have htailpw : List.Pairwise (fun a b => a.end_index ≤ b.start_index) (s :: rest) :=
    hpw.sublist (List.sublist_append_right _ _)
  constructor
  · intro d hd
    rcases List.mem_append.mp hd with hd1 | hd2
    · obtain ⟨⟨s0, hs0, hds⟩, _, hdse, ⟨sl, hsl, hdsl⟩⟩ := hflush d hd1
      have hs0mem : s0 ∈ cur := by
        cases cur
        · simp at hs0
        · simp at hs0
          subst hs0
          exact List.mem_cons_self _ _
      refine ⟨hdse, ?_, ⟨s0, List.mem_append_left _ hs0mem, hds⟩⟩
      rw [hdsl]
      exact (hcurb sl hsl).2
    · rcases List.mem_cons.mp hd2 with rfl | hd3
      · exact ⟨hsb.1, hsb.2, ⟨s, hsmem, rfl⟩⟩
      · obtain ⟨h1, h2, ⟨sy, hsy, hdsy⟩⟩ := hih.1 d hd3
        exact ⟨h1, h2, ⟨sy, List.mem_append_right _ (List.mem_cons_of_mem _ hsy), hdsy⟩⟩
  · refine List.pairwise_append.mpr ⟨?_, ?_, ?_⟩
    · cases cur with
      | nil => simp [flushSents]
      | cons c0 cs => simp [flushSents]
    · refine List.pairwise_cons.mpr ⟨?_, hih.2⟩
      intro y hy
      obtain ⟨_, _, ⟨sy, hsy, hysy⟩⟩ := hih.1 y hy
      have h1 := (List.pairwise_cons.mp htailpw).1 sy hsy
      show s.start_index ≤ y.2.1
      rw [hysy]
      omega
    · intro x hx y hy
      rcases List.mem_cons.mp hy with rfl | hy2
      · exact flushSents_start_le cur (s :: rest) hpw hse x hx s hsmem
      · obtain ⟨_, _, ⟨sy, hsy, hysy⟩⟩ := hih.1 y hy2
        have := flushSents_start_le cur (s :: rest) hpw hse x hx sy
          (List.mem_append_right _ (List.mem_cons_of_mem _ hsy))
        rw [hysy]
        exact this

/-- Helper: the sentence merge produces chunks whose offsets are well-formed,
bounded, ordered by start, and anchored at input sentence starts. -/
theorem mergeSentencesGo_bounds (c : SentenceChunker) (hi : Nat) :
    ∀ sents cur,
      (∀ x ∈ cur ++ sents, x.start_index ≤ x.end_index ∧ x.end_index ≤ hi) →
      List.Pairwise (fun a b => a.end_index ≤ b.start_index) (cur ++ sents) →
      (∀ d ∈ mergeSentencesGo c sents cur,
        d.2.1 ≤ d.2.2 ∧ d.2.2 ≤ hi ∧ ∃ x ∈ cur ++ sents, d.2.1 = x.start_index) ∧
      List.Pairwise (fun x y => x.2.1 ≤ y.2.1) (mergeSentencesGo c sents cur) := by
  intro sents
  induction sents with
  | nil =>
    intro cur hb hpw
    rw [List.append_nil] at hb hpw
    have hflush := flushSents_spec cur hpw (fun x hx => (hb x hx).1)
    constructor
    · intro d hd
      have hd2 : d ∈ flushSents cur := hd
      obtain ⟨⟨s0, hs0, hds⟩, _, hdse, ⟨sl, hsl, hdsl⟩⟩ := hflush d hd2
      have hs0mem : s0 ∈ cur := by
        cases cur
        · simp at hs0
        · simp at hs0
          subst hs0
          exact List.mem_cons_self _ _
      refine ⟨hdse, ?_, ⟨s0, by simpa using hs0mem, hds⟩⟩
      rw [hdsl]
      exact (hb sl hsl).2
    · cases cur with
      | nil => simp [mergeSentencesGo, flushSents]
      | cons c0 cs => simp [mergeSentencesGo, flushSents]
  | cons s rest ih =>
    intro cur hb hpw
    rw [mergeSentencesGo_cons]
    have hse : ∀ x ∈ cur ++ s :: rest, x.start_index ≤ x.end_index := fun x hx => (hb x hx).1
    have hrestb : ∀ x ∈ ([] : List Sentence) ++ rest,
        x.start_index ≤ x.end_index ∧ x.end_index ≤ hi :=
      fun x hx => hb x (List.mem_append_right _ (List.mem_cons_of_mem _ hx))
    have hrestpw : List.Pairwise (fun a b => a.end_index ≤ b.start_index)
        (([] : List Sentence) ++ rest) :=
      (List.pairwise_cons.mp (hpw.sublist (List.sublist_append_right _ _))).2
    by_cases hbig : c.length_function s.text > c.chunk_size
    · rw [if_pos hbig]
      exact mergeSentencesGo_flush_standalone c hi s rest cur hb hpw (ih [] hrestb hrestpw)
    · rw [if_neg hbig]
      by_cases hover : c.length_function (joinSentences (cur ++ [s])) > c.chunk_size
      · rw [if_pos hover]
        by_cases hfits : c.length_function (joinSentences (sentOverlap c cur ++ [s])) ≤
            c.chunk_size
        · rw [if_pos hfits]
          have hsuffix := sentOverlap_suffix c cur
          have hsub : List.Sublist ((sentOverlap c cur ++ [s]) ++ rest) (cur ++ s :: rest) := by
            rw [List.append_assoc, List.singleton_append]
            exact List.Sublist.append hsuffix.sublist (List.Sublist.refl _)
          have hbx : ∀ x ∈ (sentOverlap c cur ++ [s]) ++ rest,
              x.start_index ≤ x.end_index ∧ x.end_index ≤ hi :=
            fun x hx => hb x (hsub.mem hx)
          have hpwx := hpw.sublist hsub
          have hih := ih (sentOverlap c cur ++ [s]) hbx hpwx
          have hcurpw : List.Pairwise (fun a b => a.end_index ≤ b.start_index) cur :=
            hpw.sublist (List.sublist_append_left _ _)
          have hcurse : ∀ x ∈ cur, x.start_index ≤ x.end_index :=
            fun x hx => hse x (List.mem_append_left _ hx)
          have hflush := flushSents_spec cur hcurpw hcurse
          constructor
          · intro d hd
            rcases List.mem_append.mp hd with hd1 | hd2
            · obtain ⟨⟨s0, hs0, hds⟩, _, hdse, ⟨sl, hsl, hdsl⟩⟩ := hflush d hd1
              have hs0mem : s0 ∈ cur := by
                cases cur
                · simp at hs0
                · simp at hs0
                  subst hs0
                  exact List.mem_cons_self _ _
              refine ⟨hdse, ?_, ⟨s0, List.mem_append_left _ hs0mem, hds⟩⟩
              rw [hdsl]
              exact (hb sl (List.mem_append_left _ hsl)).2
            · obtain ⟨h1, h2, ⟨sy, hsy, hdsy⟩⟩ := hih.1 d hd2
              exact ⟨h1, h2, ⟨sy, hsub.mem hsy, hdsy⟩⟩
          · refine List.pairwise_append.mpr ⟨?_, hih.2, ?_⟩
            · cases cur with
              | nil => simp [flushSents]
              | cons c0 cs => simp [flushSents]
            · intro x hx y hy
              obtain ⟨_, _, ⟨sy, hsy, hysy⟩⟩ := hih.1 y hy
              have := flushSents_start_le cur (s :: rest) hpw hse x hx sy (hsub.mem hsy)
              rw [hysy]
              exact this
        · rw [if_neg hfits]
          exact mergeSentencesGo_flush_standalone c hi s rest cur hb hpw (ih [] hrestb hrestpw)
      · rw [if_neg hover]
        have hassoc : cur ++ s :: rest = (cur ++ [s]) ++ rest := by
          rw [List.append_assoc, List.singleton_append]
        rw [hassoc] at hb hpw
        have hih := ih (cur ++ [s]) hb hpw
        refine ⟨?_, hih.2⟩
        intro d hd
        obtain ⟨h1, h2, ⟨sy, hsy, hdsy⟩⟩ := hih.1 d hd
        exact ⟨h1, h2, ⟨sy, by rw [hassoc]; exact hsy, hdsy⟩⟩

/-- Helper: every input sentence is covered by some chunk produced by the
sentence merge. -/
theorem mergeSentencesGo_coverage (c : SentenceChunker) :
    ∀ sents cur,
      (∀ x ∈ cur ++ sents, x.start_index ≤ x.end_index) →
      List.Pairwise (fun a b => a.end_index ≤ b.start_index) (cur ++ sents) →
      ∀ x ∈ cur ++ sents, ∃ d ∈ mergeSentencesGo c sents cur,
        d.2.1 ≤ x.start_index ∧ x.end_index ≤ d.2.2 := by
  intro sents
  induction sents with
  | nil =>
    intro cur hse hpw x hx
    rw [List.append_nil] at hse hpw hx
    obtain ⟨d, hd, hc⟩ := flushSents_covers cur hpw hse x hx
    exact ⟨d, hd, hc⟩
  | cons s rest ih =>
    intro cur hse hpw x hx
    rw [mergeSentencesGo_cons]
    have hcurpw : List.Pairwise (fun a b => a.end_index ≤ b.start_index) cur :=
      hpw.sublist (List.sublist_append_left _ _)
    have hcurse : ∀ z ∈ cur, z.start_index ≤ z.end_index :=
      fun z hz => hse z (List.mem_append_left _ hz)
    have hrestse : ∀ z ∈ ([] : List Sentence) ++ rest, z.start_index ≤ z.end_index :=
      fun z hz => hse z (List.mem_append_right _ (List.mem_cons_of_mem _ hz))
    have hrestpw : List.Pairwise (fun a b => a.end_index ≤ b.start_index)
        (([] : List Sentence) ++ rest) :=
      (List.pairwise_cons.mp (hpw.sublist (List.sublist_append_right _ _))).2
    by_cases hbig : c.length_function s.text > c.chunk_size
    · rw [if_pos hbig]
      rcases List.mem_append.mp hx with hx1 | hx2
      · obtain ⟨d, hd, hc⟩ := flushSents_covers cur hcurpw hcurse x hx1
        exact ⟨d, List.mem_append_left _ hd, hc⟩
      · rcases List.mem_cons.mp hx2 with rfl | hx3
        · exact ⟨(x.text, x.start_index, x.end_index),
            List.mem_append_right _ (List.mem_cons_self _ _), Nat.le_refl _, Nat.le_refl _⟩
        · obtain ⟨d, hd, hc⟩ := ih [] hrestse hrestpw x hx3
          exact ⟨d, List.mem_append_right _ (List.mem_cons_of_mem _ hd), hc⟩
    · rw [if_neg hbig]
      by_cases hover : c.length_function (joinSentences (cur ++ [s])) > c.chunk_size
      · rw [if_pos hover]
        by_cases hfits : c.length_function (joinSentences (sentOverlap c cur ++ [s])) ≤
            c.chunk_size
        · rw [if_pos hfits]
          have hsuffix := sentOverlap_suffix c cur
          have hsub : List.Sublist ((sentOverlap c cur ++ [s]) ++ rest) (cur ++ s :: rest) := by
            rw [List.append_assoc, List.singleton_append]
            exact List.Sublist.append hsuffix.sublist (List.Sublist.refl _)
          have hsex : ∀ z ∈ (sentOverlap c cur ++ [s]) ++ rest,
              z.start_index ≤ z.end_index := fun z hz => hse z (hsub.mem hz)
          have hpwx := hpw.sublist hsub
          rcases List.mem_append.mp hx with hx1 | hx2
          · obtain ⟨d, hd, hc⟩ := flushSents_covers cur hcurpw hcurse x hx1
            exact ⟨d, List.mem_append_left _ hd, hc⟩
          · have hxmem : x ∈ (sentOverlap c cur ++ [s]) ++ rest := by
              rcases List.mem_cons.mp hx2 with rfl | hx3
              · exact List.mem_append_left _ (List.mem_append_right _ (List.mem_singleton_self _))
              · exact List.mem_append_right _ hx3
            obtain ⟨d, hd, hc⟩ := ih (sentOverlap c cur ++ [s]) hsex hpwx x hxmem
            exact ⟨d, List.mem_append_right _ hd, hc⟩
        · rw [if_neg hfits]
          rcases List.mem_append.mp hx with hx1 | hx2
          · obtain ⟨d, hd, hc⟩ := flushSents_covers cur hcurpw hcurse x hx1
            exact ⟨d, List.mem_append_left _ hd, hc⟩
          · rcases List.mem_cons.mp hx2 with rfl | hx3
            · exact ⟨(x.text, x.start_index, x.end_index),
                List.mem_append_right _ (List.mem_cons_self _ _), Nat.le_refl _, Nat.le_refl _⟩
            · obtain ⟨d, hd, hc⟩ := ih [] hrestse hrestpw x hx3
              exact ⟨d, List.mem_append_right _ (List.mem_cons_of_mem _ hd), hc⟩
      · rw [if_neg hover]
        have hassoc : cur ++ s :: rest = (cur ++ [s]) ++ rest := by
          rw [List.append_assoc, List.singleton_append]
        rw [hassoc] at hse hpw hx
        exact ih (cur ++ [s]) hse hpw x hx

/-- Helper: every regex match position lies inside the text and satisfies the
boundary predicate. -/
theorem sentenceMatches_mem (t : Text) : ∀ m ∈ sentenceMatches t,
    m < t.length ∧ sentenceBoundaryAt t m = true := by
  intro m hm
  rw [sentenceMatches, List.mem_filter] at hm
  exact ⟨List.mem_range.mp hm.1, hm.2⟩

/-- Helper: the regex match positions are strictly increasing. -/
theorem sentenceMatches_sorted (t : Text) :
    List.Pairwise (fun a b => a < b) (sentenceMatches t) :=
  List.Pairwise.sublist (List.filter_sublist _) (List.pairwise_lt_range t.length)

/-- Helper: a boundary position holds a whitespace character. -/
theorem sentenceBoundary_space (t : Text) (m : Nat) (hm : m < t.length)
    (hb : sentenceBoundaryAt t m = true) : isPySpace (t.getD m ' ') = true := by
  rw [sentenceBoundaryAt] at hb
  simp only [Bool.and_eq_true] at hb
  have h1 := hb.1.1.1
  rw [getD_eq_get t m hm '\x00'] at h1
  rw [getD_eq_get t m hm ' ']
  exact h1

/-- Helper: chunk-level bounds, order and measured sizes for
`SentenceChunker.chunk`, for every configuration. -/
theorem sentenceChunk_bounds (c : SentenceChunker) (t : Text) :
    (∀ ck ∈ c.chunk t, ck.start_char_index ≤ ck.end_char_index ∧
      ck.end_char_index ≤ t.length ∧
      ck.token_count = c.length_function ck.text_for_generation) ∧
    List.Pairwise (fun x y => x.start_char_index ≤ y.start_char_index) (c.chunk t) := by
  by_cases ht : t = []
  · simp [SentenceChunker.chunk, ht]
  · have hunf : c.chunk t = enumMap (fun i d =>
        { text_for_generation := d.1
          chunk_id := i
          start_char_index := d.2.1
          end_char_index := d.2.2
          sequence_number := i
          token_count := c.length_function d.1
          chunking_strategy_used := "sentence" }) 0
        (mergeSentencesGo c (splitTextWithRegex t) []) := by
      rw [SentenceChunker.chunk]
      simp only [if_neg ht, SentenceChunker.mergeSentences]
    have hsents := sentencesGo_spec t (sentenceMatches t) 0
      (fun m hm => ⟨Nat.zero_le _, (sentenceMatches_mem t m hm).1⟩)
      (sentenceMatches_sorted t) (Nat.zero_le _)
    have hmerge := mergeSentencesGo_bounds c t.length (splitTextWithRegex t) []
      (fun x hx => ⟨(hsents.1 x hx).2.1, (hsents.1 x hx).2.2⟩) hsents.2
    rw [hunf]
    constructor
    · refine enumMap_forall _ 0 _ ?_
      intro j d hd
      have := hmerge.1 d hd
      exact ⟨this.1, this.2.1, rfl⟩
    · exact enumMap_pairwise
        (S := fun (x y : Chunk) => x.start_char_index ≤ y.start_char_index)
        (fun i d =>
          { text_for_generation := d.1
            chunk_id := i
            start_char_index := d.2.1
            end_char_index := d.2.2
            sequence_number := i
            token_count := c.length_function d.1
            chunking_strategy_used := "sentence" })
        (fun j k x y hxy => hxy) 0 _ hmerge.2

/-- Helper: every non-whitespace position of the input is covered by some
chunk of `SentenceChunker.chunk`, for every configuration. -/
theorem sentenceChunk_coverage (c : SentenceChunker) (t : Text) :
    ∀ p, ∀ hp : p < t.length, isPySpace (t.get ⟨p, hp⟩) = false →
      ∃ ck ∈ c.chunk t, ck.start_char_index ≤ p ∧ p < ck.end_char_index := by
  intro p hp hnw
  have ht : t ≠ [] := by
    intro h
    subst h
    simp at hp
  have hunf : c.chunk t = enumMap (fun i d =>
      { text_for_generation := d.1
        chunk_id := i
        start_char_index := d.2.1
        end_char_index := d.2.2
        sequence_number := i
        token_count := c.length_function d.1
        chunking_strategy_used := "sentence" }) 0
      (mergeSentencesGo c (splitTextWithRegex t) []) := by
    rw [SentenceChunker.chunk]
    simp only [if_neg ht, SentenceChunker.mergeSentences]
  obtain ⟨sn, hsn, h1, h2⟩ := sentencesGo_coverage t (sentenceMatches t) 0
    (fun m hm => ⟨Nat.zero_le _, (sentenceMatches_mem t m hm).1,
      sentenceBoundary_space t m (sentenceMatches_mem t m hm).1
        (sentenceMatches_mem t m hm).2⟩)
    (sentenceMatches_sorted t) p hp (Nat.zero_le _) hnw
  have hsents := sentencesGo_spec t (sentenceMatches t) 0
    (fun m hm => ⟨Nat.zero_le _, (sentenceMatches_mem t m hm).1⟩)
    (sentenceMatches_sorted t) (Nat.zero_le _)
  obtain ⟨d, hd, hd1, hd2⟩ := mergeSentencesGo_coverage c (splitTextWithRegex t) []
    (fun x hx => (hsents.1 x hx).2.1) hsents.2 sn hsn
  obtain ⟨j, hj⟩ := enumMap_exists (fun i d =>
    { text_for_generation := d.1
      chunk_id := i
      start_char_index := d.2.1
      end_char_index := d.2.2
      sequence_number := i
      token_count := c.length_function d.1
      chunking_strategy_used := "sentence" } : Nat → Text × Nat × Nat → Chunk) 0 _ d hd
  rw [hunf]
  refine ⟨_, hj, ?_, ?_⟩
  · show d.2.1 ≤ p
    omega
  · show p < d.2.2
    omega

/-- Helper: chunk-level specification of `FixedSizeChunker.chunk` on a
non-empty input, for every configuration: bounds, slice fidelity, measured
sizes, anchoring at 0, termination at the text length, strict start order,
adjacency and full positional coverage. -/
theorem fixedChunk_spec (c : FixedSizeChunker) (t : Text) (ht : t ≠ []) :
    (∀ ck ∈ c.chunk t,
      ck.start_char_index < ck.end_char_index ∧ ck.end_char_index ≤ t.length ∧
      ck.text_for_generation = pySlice t ck.start_char_index ck.end_char_index ∧
      ck.token_count = c.length_function ck.text_for_generation) ∧
    (∀ ck, (c.chunk t).head? = some ck → ck.start_char_index = 0) ∧
    c.chunk t ≠ [] ∧
    List.Pairwise (fun a b => a.start_char_index < b.start_char_index) (c.chunk t) ∧
    List.Chain' (fun a b => b.start_char_index ≤ a.end_char_index) (c.chunk t) ∧
    (∀ ck, (c.chunk t).getLast? = some ck → ck.end_char_index = t.length) ∧
    (∀ p, p < t.length → ∃ ck ∈ c.chunk t,
      ck.start_char_index ≤ p ∧ p < ck.end_char_index) := by
  have hlen : 0 < t.length := List.length_pos.mpr ht
  have hu : c.chunk t = c.chunkGo t 0 0 := by
    rw [FixedSizeChunker.chunk, if_neg ht]
  have h := chunkGo_spec c t t.length 0 0 (by omega) hlen
  rw [hu]
  exact ⟨fun ck hck => ⟨(h.1 ck hck).2.1, (h.1 ck hck).2.2.1, (h.1 ck hck).2.2.2.1,
      (h.1 ck hck).2.2.2.2⟩,
    h.2.1, h.2.2.1, h.2.2.2.1, h.2.2.2.2.1, h.2.2.2.2.2.1,
    fun p hp => h.2.2.2.2.2.2 p (Nat.zero_le _) hp⟩

/-- C5: for every input text and every chunker configuration of each of the
three strategies, the returned chunk sequence has monotonically
non-decreasing start offsets, and every returned chunk satisfies
`0 ≤ start_char_index ≤ end_char_index ≤ len(original input)` (the lower
bound is inherent to the `Nat` offsets). -/
theorem c5_monotone_offsets :
    (∀ (c : FixedSizeChunker) (t : Text),
      List.Pairwise (fun x y => x.start_char_index ≤ y.start_char_index) (c.chunk t) ∧
      ∀ ck ∈ c.chunk t, ck.start_char_index ≤ ck.end_char_index ∧
        ck.end_char_index ≤ t.length) ∧
    (∀ (c : RecursiveCharacterChunker) (t : Text),
      List.Pairwise (fun x y => x.start_char_index ≤ y.start_char_index) (c.chunk t) ∧
      ∀ ck ∈ c.chunk t, ck.start_char_index ≤ ck.end_char_index ∧
        ck.end_char_index ≤ t.length) ∧
    (∀ (c : SentenceChunker) (t : Text),
      List.Pairwise (fun x y => x.start_char_index ≤ y.start_char_index) (c.chunk t) ∧
      ∀ ck ∈ c.chunk t, ck.start_char_index ≤ ck.end_char_index ∧
        ck.end_char_index ≤ t.length) := by
  refine ⟨?_, ?_, ?_⟩
  · intro c t
    by_cases ht : t = []
    · subst ht
      simp [FixedSizeChunker.chunk]
    · have h := fixedChunk_spec c t ht
      exact ⟨(h.2.2.2.1).imp (fun hab => Nat.le_of_lt hab),
        fun ck hck => ⟨Nat.le_of_lt (h.1 ck hck).1, (h.1 ck hck).2.1⟩⟩
  · intro c t
    have h := recursiveChunk_bounds c t
    exact ⟨h.2, fun ck hck => ⟨(h.1 ck hck).1, (h.1 ck hck).2.1⟩⟩
  · intro c t
    have h := sentenceChunk_bounds c t
    exact ⟨h.2, fun ck hck => ⟨(h.1 ck hck).1, (h.1 ck hck).2.1⟩⟩

/-- C10: for every input text and every `FixedSizeChunker` configuration,
every returned chunk's text equals the exact slice of the original input at
its recorded offsets and its `token_count` equals the configured length
function applied to that text; the same slice fidelity holds for
`RecursiveCharacterChunker` when `keep_separator` is true, with the
constructor-established facts that `chunk_size` is positive and the stored
separator list is non-empty. -/
theorem c10_slice_fidelity :
    (∀ (c : FixedSizeChunker) (t : Text), ∀ ck ∈ c.chunk t,
      ck.text_for_generation = pySlice t ck.start_char_index ck.end_char_index ∧
      ck.token_count = c.length_function ck.text_for_generation) ∧
    (∀ (c : RecursiveCharacterChunker) (t : Text), c.keep_separator = true →
      0 < c.chunk_size → c.separators ≠ [] → ∀ ck ∈ c.chunk t,
      ck.text_for_generation = pySlice t ck.start_char_index ck.end_char_index ∧
      ck.token_count = c.length_function ck.text_for_generation) := by
  constructor
  · intro c t ck hck
    by_cases ht : t = []
    · subst ht
      simp [FixedSizeChunker.chunk] at hck
    · have h := fixedChunk_spec c t ht
      exact ⟨(h.1 ck hck).2.2.1, (h.1 ck hck).2.2.2⟩
  · intro c t hkeep hk hsep ck hck
    exact ⟨(recursiveChunk_chain c hkeep hk hsep t).1 ck hck,
      ((recursiveChunk_bounds c t).1 ck hck).2.2⟩

/-- Witness for C10: the recursive-chunker hypotheses hold at the concrete
witness configuration, and the theorem instantiates there. -/
theorem c10_slice_fidelity_witness :
    witnessRecCfg.keep_separator = true ∧ 0 < witnessRecCfg.chunk_size ∧
    witnessRecCfg.separators ≠ [] ∧
    ∀ ck ∈ witnessRecCfg.chunk witnessText,
      ck.text_for_generation = pySlice witnessText ck.start_char_index ck.end_char_index ∧
      ck.token_count = witnessRecCfg.length_function ck.text_for_generation :=
  ⟨rfl, by decide, by decide,
    c10_slice_fidelity.2 witnessRecCfg witnessText rfl (by decide) (by decide)⟩

/-- C2 (amended): the coverage/no-loss property as the code realises it. For
every non-empty input, `FixedSizeChunker` returns a non-empty chunk sequence
whose first chunk starts at 0, whose last chunk ends at the text length,
whose adjacent chunks overlap or abut, whose every chunk is the exact slice
of the input at its offsets, and which covers every character position — so
the de-duplicated concatenation in sequence order reproduces the full text.
`RecursiveCharacterChunker` gives the same slice-exact full positional
coverage when `keep_separator` is true (with the constructor-established
positive `chunk_size` and non-empty separator list); when `keep_separator`
is false the separator characters are dropped from every chunk, so they are
not reproduced (the counterexample theorem), and the claim must exclude that
mode. `SentenceChunker` covers every non-whitespace character position,
whitespace normalization at the join being exempted. -/
theorem c2_coverage_amended :
    (∀ (c : FixedSizeChunker) (t : Text), t ≠ [] →
      c.chunk t ≠ [] ∧
      (∀ ck, (c.chunk t).head? = some ck → ck.start_char_index = 0) ∧
      (∀ ck, (c.chunk t).getLast? = some ck → ck.end_char_index = t.length) ∧
      List.Chain' (fun a b => b.start_char_index ≤ a.end_char_index) (c.chunk t) ∧
      (∀ ck ∈ c.chunk t,
        ck.text_for_generation = pySlice t ck.start_char_index ck.end_char_index) ∧
      (∀ p, p < t.length → ∃ ck ∈ c.chunk t,
        ck.start_char_index ≤ p ∧ p < ck.end_char_index)) ∧
    (∀ (c : RecursiveCharacterChunker) (t : Text), c.keep_separator = true →
      0 < c.chunk_size → c.separators ≠ [] →
      (∀ ck ∈ c.chunk t,
        ck.text_for_generation = pySlice t ck.start_char_index ck.end_char_index) ∧
      (∀ p, p < t.length → ∃ ck ∈ c.chunk t,
        ck.start_char_index ≤ p ∧ p < ck.end_char_index)) ∧
    (∀ (c : SentenceChunker) (t : Text) (p : Nat) (hp : p < t.length),
      isPySpace (t.get ⟨p, hp⟩) = false →
      ∃ ck ∈ c.chunk t, ck.start_char_index ≤ p ∧ p < ck.end_char_index) := by
  refine ⟨?_, ?_, ?_⟩
  · intro c t ht
    have h := fixedChunk_spec c t ht
    exact ⟨h.2.2.1, h.2.1, h.2.2.2.2.2.1, h.2.2.2.2.1,
      fun ck hck => (h.1 ck hck).2.2.1, h.2.2.2.2.2.2⟩
  · intro c t hkeep hk hsep
    exact recursiveChunk_chain c hkeep hk hsep t
  · intro c t p hp hnw
    exact sentenceChunk_coverage c t p hp hnw

/-- Witness for C2: the hypotheses of all three parts hold at the concrete
witness configurations and input, and the theorem instantiates there. -/
theorem c2_coverage_witness :
    witnessText ≠ [] ∧
    witnessRecCfg.keep_separator = true ∧ 0 < witnessRecCfg.chunk_size ∧
    witnessRecCfg.separators ≠ [] ∧
    0 < witnessText.length ∧
    isPySpace (witnessText.get ⟨0, by decide⟩) = false ∧
    (witnessFixedCfg.chunk witnessText ≠ [] ∧
      (∀ ck, (witnessFixedCfg.chunk witnessText).head? = some ck →
        ck.start_char_index = 0) ∧
      (∀ ck, (witnessFixedCfg.chunk witnessText).getLast? = some ck →
        ck.end_char_index = witnessText.length) ∧
      List.Chain' (fun a b => b.start_char_index ≤ a.end_char_index)
        (witnessFixedCfg.chunk witnessText) ∧
      (∀ ck ∈ witnessFixedCfg.chunk witnessText, ck.text_for_generation =
        pySlice witnessText ck.start_char_index ck.end_char_index) ∧
      (∀ p, p < witnessText.length → ∃ ck ∈ witnessFixedCfg.chunk witnessText,
        ck.start_char_index ≤ p ∧ p < ck.end_char_index)) ∧
    ((∀ ck ∈ witnessRecCfg.chunk witnessText, ck.text_for_generation =
        pySlice witnessText ck.start_char_index ck.end_char_index) ∧
      (∀ p, p < witnessText.length → ∃ ck ∈ witnessRecCfg.chunk witnessText,
        ck.start_char_index ≤ p ∧ p < ck.end_char_index)) ∧
    (∃ ck ∈ witnessSentCfg.chunk witnessText,
      ck.start_char_index ≤ 0 ∧ 0 < ck.end_char_index) :=
  ⟨by decide, rfl, by decide, by decide, by decide, by decide,
    c2_coverage_amended.1 witnessFixedCfg witnessText (by decide),
    c2_coverage_amended.2.1 witnessRecCfg witnessText rfl (by decide) (by decide),
    c2_coverage_amended.2.2 witnessSentCfg witnessText 0 (by decide) (by decide)⟩
